import Mathlib

/-!
# Nivlheim server: retention job and file parsing

A shallow embedding of the retention job, `server/service/removeInactiveMachines.go`, and
of the file parsing that `server/service/parseFiles_test.go` tests, with the properties
proved about them.  The two tables are lists of rows, the SQL statements the retention job
issues are a small datatype with an interpreter, and the Go method `Run` is a function from
the state before the run to the state in which the method returns.
-/

namespace Nivlheim

/-! ## Data model -/

/-- Go's `sql.NullInt64`: the scanned value and whether the column was non-NULL. -/
structure NullInt64 where
  Int64 : Int
  Valid : Bool
deriving DecidableEq, Repr

/-- Modelled from the spec: a row of table `hostinfo` (the schema, `init.sql`, is not part of
the sources).  `certfp` is the host identity; `age` is the value the expression
`extract(day from now()-lastseen)` has for this row at the time of the run, `none` when
`lastseen` is NULL; `kernel` to `os_edition` are the derived attributes; `processed` is "the
host's last processed timestamp" of section 4.3, NULL when nothing was processed: the
specification names no operation that advances it, and none of this development writes it. -/
structure HostInfo where
  certfp : String
  age : Option Int
  kernel : Option String
  vendor : Option String
  model : Option String
  serialno : Option String
  os : Option String
  os_edition : Option String
  processed : Option Int := none
deriving DecidableEq, Repr

/-- Modelled from the spec: a row of table `files`, an uploaded file (section 3,
UploadedFile; the schema, `init.sql`, is not part of the sources). -/
structure UploadedFile where
  fileid : Int
  certfp : String
  filename : String
  content : String
  received : Int
  current : Bool
deriving DecidableEq, Repr

/-- The two tables read and written by the job. -/
structure DB where
  hostinfo : List HostInfo
  files : List UploadedFile
deriving DecidableEq, Repr

/-- Modelled from the spec: the key constraint of table `hostinfo`, whose schema, `init.sql`, is
not part of the sources: "one row per host identity (certificate fingerprint)" (section 3). -/
def DB.certfpUnique (db : DB) : Prop :=
  (db.hostinfo.map (fun h => h.certfp)).Nodup

instance (db : DB) : Decidable db.certfpUnique := by
  unfold DB.certfpUnique; infer_instance

/-! ## SQL statements issued by the job -/

/-- The three statements `Run` passes to `db.Exec`, with their `$1` argument. -/
inductive Stmt where
  /-- `DELETE FROM hostinfo WHERE certfp=$1` -/
  | deleteHostinfo (certfp : String)
  /-- `DELETE FROM files WHERE certfp=$1` -/
  | deleteFiles (certfp : String)
  /-- `UPDATE files SET current=false WHERE certfp=$1` -/
  | updateFilesNotCurrent (certfp : String)
deriving DecidableEq, Repr

/-- The effect of `UPDATE files SET current=false` on one row. -/
def UploadedFile.notCurrent (f : UploadedFile) : UploadedFile :=
  { f with current := false }

/-- Effect of a successfully executed statement on the tables; each statement is committed
on its own.  `Run` discards the result of every `db.Exec`, so the source has no branch on a
failed statement, and failed statements are not part of this model. -/
def DB.exec (db : DB) : Stmt → DB
  | .deleteHostinfo c => { db with hostinfo := db.hostinfo.filter (fun h => h.certfp ≠ c) }
  | .deleteFiles c => { db with files := db.files.filter (fun f => f.certfp ≠ c) }
  | .updateFilesNotCurrent c =>
      { db with files := db.files.map (fun f => if f.certfp = c then f.notCurrent else f) }

/-- What the job writes to the log. -/
inductive LogEntry where
  /-- `log.Print(err)` -/
  | error (msg : String)
  /-- `log.Printf("Archived %d machines, deleted %d machines", acount, dcount)` -/
  | summary (acount dcount : Int)
deriving DecidableEq, Repr

/-- Whether a log entry is the archived/deleted summary. -/
def LogEntry.isSummary : LogEntry → Bool
  | .summary _ _ => true
  | .error _ => false

/-- The errors the database driver hands back during one run, on which `Run` branches: the
error of `db.Query`, if any, and the error of `rows.Scan` on the `i`-th row of the result
(counted from 0), if any.  `rows.Next` delivers every row of the result. -/
structure Driver where
  queryErr : Option String
  scanErr : Nat → Option String

/-- A driver that reports no error. -/
def Driver.ok : Driver := { queryErr := none, scanErr := fun _ => none }

/-- The result of `SELECT certfp,extract(day from now()-lastseen) FROM hostinfo`: one pair
per row, computed before the loop starts. -/
def query (db : DB) : List (String × Option Int) :=
  db.hostinfo.map (fun h => (h.certfp, h.age))

/-- Scanning a column into a `sql.NullInt64`: NULL leaves `Int64` at 0. -/
def scanNullInt64 : Option Int → NullInt64
  | none => { Int64 := 0, Valid := false }
  | some n => { Int64 := n, Valid := true }

/-- The local `days := int(days64.Int64)` for a result row (`int` is 64 bits wide). -/
def daysOf (v : Option Int) : Int := (scanNullInt64 v).Int64

/-- The age in days the job works with for a `hostinfo` row. -/
def HostInfo.days (h : HostInfo) : Int := daysOf h.age

/-! ## The job -/

/-- The variables of `Run` and the observable effects so far: the tables, the counters
`acount` and `dcount` (Go `int`; they count rows of the result and do not overflow), the
variable `err`, the statements passed to `db.Exec` and the log. -/
structure RunState where
  db : DB
  acount : Int
  dcount : Int
  err : Option String
  issued : List Stmt
  log : List LogEntry

/-- Passing one statement to `db.Exec`. -/
def RunState.exec (s : RunState) (q : Stmt) : RunState :=
  { s with db := s.db.exec q, issued := s.issued ++ [q] }

/-- The `for rows.Next()` loop of `Run`, started at row number `i`.  The Boolean tells
whether the function returned from inside the loop. -/
def rowsLoop (scanErr : Nat → Option String) (archiveDayLimit deleteDayLimit : Int) :
    Nat → List (String × Option Int) → RunState → Bool × RunState
  | _, [], s => (false, s)
  | i, (certfp, v) :: rest, s =>
    match scanErr i with
    | some e => (true, { s with err := some e, log := s.log ++ [.error e] })
    | none =>
      let s := { s with err := none }
      let days := daysOf v
      if days ≥ deleteDayLimit then
        let s := (s.exec (.deleteHostinfo certfp)).exec (.deleteFiles certfp)
        rowsLoop scanErr archiveDayLimit deleteDayLimit (i + 1) rest
          { s with dcount := s.dcount + 1 }
      else if days ≥ archiveDayLimit then
        let s := (s.exec (.updateFilesNotCurrent certfp)).exec (.deleteHostinfo certfp)
        rowsLoop scanErr archiveDayLimit deleteDayLimit (i + 1) rest
          { s with acount := s.acount + 1 }
      else
        rowsLoop scanErr archiveDayLimit deleteDayLimit (i + 1) rest s

/-- The method `Run` of `removeInactiveMachinesJob`.  The two limits are the values returned
by `getSystemSettingAsInt`.  The result is the state in which the method returns: it is a
total function, `log.Print` and `log.Printf` do not end the process.  After the loop the
source tests `err` once more; the loop is only left with the `err` of the last scan, which
is nil, so that test never fires. -/
def removeInactiveMachinesJob.Run (drv : Driver) (archiveDayLimit deleteDayLimit : Int)
    (db : DB) : RunState :=
  match drv.queryErr with
  | some e =>
    { db := db, acount := 0, dcount := 0, err := some e, issued := [], log := [.error e] }
  | none =>
    let s0 : RunState :=
      { db := db, acount := 0, dcount := 0, err := none, issued := [], log := [] }
    match rowsLoop drv.scanErr archiveDayLimit deleteDayLimit 0 (query db) s0 with
    | (true, s) => s
    | (false, s) =>
      match s.err with
      | some e => { s with log := s.log ++ [.error e] }
      | none =>
        if s.acount > 0 ∨ s.dcount > 0 then
          { s with log := s.log ++ [.summary s.acount s.dcount] }
        else s

/-- The `for rows.Next()` loop of `Run` when `rows.Next` may fail as well: `nextErr i` tells
that the call of `rows.Next` for row `i` fails.  Such a call returns false, as at the end of
the result, so the loop is left; its error is only reported by `rows.Err()`, which `Run`
never reads, and `err` is still that of the last scan. -/
def rowsLoopNext (nextErr : Nat → Bool) (scanErr : Nat → Option String)
    (archiveDayLimit deleteDayLimit : Int) :
    Nat → List (String × Option Int) → RunState → Bool × RunState
  | _, [], s => (false, s)
  | i, (certfp, v) :: rest, s =>
    if nextErr i then (false, s)
    else
      match scanErr i with
      | some e => (true, { s with err := some e, log := s.log ++ [.error e] })
      | none =>
        let s := { s with err := none }
        let days := daysOf v
        if days ≥ deleteDayLimit then
          let s := (s.exec (.deleteHostinfo certfp)).exec (.deleteFiles certfp)
          rowsLoopNext nextErr scanErr archiveDayLimit deleteDayLimit (i + 1) rest
            { s with dcount := s.dcount + 1 }
        else if days ≥ archiveDayLimit then
          let s := (s.exec (.updateFilesNotCurrent certfp)).exec (.deleteHostinfo certfp)
          rowsLoopNext nextErr scanErr archiveDayLimit deleteDayLimit (i + 1) rest
            { s with acount := s.acount + 1 }
        else
          rowsLoopNext nextErr scanErr archiveDayLimit deleteDayLimit (i + 1) rest s

/-- The method `Run` of `removeInactiveMachinesJob` when `rows.Next` may fail as well; `Run`
above is the case in which `rows.Next` delivers every row of the result. -/
def removeInactiveMachinesJob.RunNext (nextErr : Nat → Bool) (drv : Driver)
    (archiveDayLimit deleteDayLimit : Int) (db : DB) : RunState :=
  match drv.queryErr with
  | some e =>
    { db := db, acount := 0, dcount := 0, err := some e, issued := [], log := [.error e] }
  | none =>
    let s0 : RunState :=
      { db := db, acount := 0, dcount := 0, err := none, issued := [], log := [] }
    match rowsLoopNext nextErr drv.scanErr archiveDayLimit deleteDayLimit 0 (query db) s0 with
    | (true, s) => s
    | (false, s) =>
      match s.err with
      | some e => { s with log := s.log ++ [.error e] }
      | none =>
        if s.acount > 0 ∨ s.dcount > 0 then
          { s with log := s.log ++ [.summary s.acount s.dcount] }
        else s

open removeInactiveMachinesJob (Run RunNext)

/-! ## File parsing

`parseFile` and `parseFilesJob.Run` are exercised by `parseFiles_test.go`, but their
source, `parseFiles.go`, is not among the files of this development.  The definitions of
this section follow the specification (sections 3, 4.1, 4.2 and 4.3). -/

/-- Modelled from the spec: the white space removed by "trimming" a content (section 4.1):
space, tab, carriage return and line feed. -/
def isSpace (c : Char) : Bool := c = ' ' || c = '\t' || c = '\r' || c = '\n'

/-- Modelled from the spec: a text "trimmed", without its leading and trailing white space
(section 4.1, kernel parser). -/
def trimSpace (s : List Char) : List Char := (s.dropWhile isSpace).rdropWhile isSpace

/-- Modelled from the spec: the derived attributes of a host that the parsers of
`parseFiles.go` produce (section 3, HostInfo). -/
inductive Field where
  | kernel | vendor | model | serialno | os | os_edition
deriving DecidableEq, Repr

/-- Modelled from the spec: the kernel parser of `parseFiles.go` (section 4.1): "the whole
trimmed string is the kernel value"; "empty/garbage content: parser yields no fields". -/
def parseKernel (content : List Char) : List (Field × String) :=
  if trimSpace content = [] then [] else [(.kernel, String.mk (trimSpace content))]

/-- Modelled from the spec: the lines of a content, split at line feeds (section 4.1: the
hardware parser reads "Key: Value" lines). -/
def splitLines : List Char → List (List Char)
  | [] => [[]]
  | c :: cs =>
    if c = '\n' then [] :: splitLines cs
    else
      match splitLines cs with
      | [] => [[c]]
      | l :: ls => (c :: l) :: ls

/-- Modelled from the spec: whether a line of a hardware dump is indented, that is, a
"Key: Value" line grouped under the section header above it (section 4.1). -/
def isIndented : List Char → Bool
  | c :: _ => c = ' ' || c = '\t'
  | [] => false

/-- Modelled from the spec: key and value of a "Key: Value" line (section 4.1), split at the
first colon and trimmed. -/
def keyValue (line : List Char) : Option (List Char × List Char) :=
  if ':' ∈ line then
    some (trimSpace (line.takeWhile (fun c => c ≠ ':')),
          trimSpace ((line.dropWhile (fun c => c ≠ ':')).drop 1))
  else none

/-- Modelled from the spec: the header of the section the hardware parser reads
(section 4.1). -/
def systemInformation : List Char := "System Information".toList

/-- Modelled from the spec: the attribute a key of the "System Information" section stands
for (section 4.1): vendor from "Manufacturer", model from "Product Name", serial number from
"Serial Number". -/
def hardwareField (key : List Char) : Option Field :=
  if key = "Manufacturer".toList then some .vendor
  else if key = "Product Name".toList then some .model
  else if key = "Serial Number".toList then some .serialno
  else none

/-- Modelled from the spec: the fields one line of the "System Information" section yields
(section 4.1); a line without a value yields none. -/
def lineFields (line : List Char) : List (Field × String) :=
  match keyValue line with
  | some (k, v) =>
    match hardwareField k with
    | some fld => if v = [] then [] else [(fld, String.mk v)]
    | none => []
  | none => []

/-- Modelled from the spec: the hardware parser of `parseFiles.go` over the lines of a dump
(section 4.1).  `header` is the section header the current line is grouped under: a line that
is not indented starts a new section, and only the lines of the "System Information" section
are read ("disambiguate by section header, not global line scan"). -/
def parseHardwareLines (header : List Char) : List (List Char) → List (Field × String)
  | [] => []
  | line :: rest =>
    if isIndented line then
      if header = systemInformation then lineFields line ++ parseHardwareLines header rest
      else parseHardwareLines header rest
    else parseHardwareLines (trimSpace line) rest

/-- Modelled from the spec: the hardware parser of `parseFiles.go` (section 4.1). -/
def parseHardware (content : List Char) : List (Field × String) :=
  parseHardwareLines [] (splitLines content)

/-- Modelled from the spec: the signature of the "Red Hat Enterprise Linux" rule of the OS
detector (section 4.2). -/
def rhelSig : List Char := "Red Hat Enterprise Linux ".toList

/-- Modelled from the spec: the word between distribution and version in a release text,
"<Distro> release <version> (<codename>)" (section 4.1). -/
def releaseSig : List Char := " release ".toList

/-- Modelled from the spec: the signature of the "Fedora" rule of the OS detector
(section 4.2). -/
def fedoraSig : List Char := "Fedora release ".toList

/-- Modelled from the spec: the text behind a signature, when the text starts with the
signature (section 4.2, "substring/pattern"). -/
def dropSig (sig text : List Char) : Option (List Char) :=
  if sig.isPrefixOf text then some (text.drop sig.length) else none

/-- Modelled from the spec: a pattern is looked for at every position of the release text,
from the left (section 4.2, "substring/pattern"). -/
def firstMatch {α : Type} (p : List Char → Option α) : List Char → Option α
  | [] => p []
  | c :: cs =>
    match p (c :: cs) with
    | some r => some r
    | none => firstMatch p cs

/-- Modelled from the spec: the "Red Hat Enterprise Linux" rule of the OS detector
(section 4.2): "version-qualified logic that also distinguishes Workstation/Server editions";
the label carries the major version only, as in "RHEL 7" (section 8). -/
def rhelAt (text : List Char) : Option (String × Option String) :=
  match dropSig rhelSig text with
  | none => none
  | some rest =>
    match dropSig releaseSig (rest.dropWhile (fun c => !isSpace c)) with
    | none => none
    | some rest2 =>
      if rest.takeWhile (fun c => !isSpace c) = [] ∨ rest2.takeWhile Char.isDigit = [] then none
      else some ("RHEL " ++ String.mk (rest2.takeWhile Char.isDigit),
                 some (String.mk (rest.takeWhile (fun c => !isSpace c))))

/-- Modelled from the spec: the "Fedora" rule of the OS detector (section 4.2): it "extracts
its release number directly into the family label, e.g. Fedora 27". -/
def fedoraAt (text : List Char) : Option (String × Option String) :=
  match dropSig fedoraSig text with
  | none => none
  | some rest =>
    if rest.takeWhile Char.isDigit = [] then none
    else some ("Fedora " ++ String.mk (rest.takeWhile Char.isDigit), none)

/-- Modelled from the spec: the "ordered list of signature rules" of the OS detector
(section 4.2), in the order in which the specification names them. -/
def osRules : List (List Char → Option (String × Option String)) :=
  [firstMatch rhelAt, firstMatch fedoraAt]

/-- Modelled from the spec: the OS detector of `parseFiles.go` (section 4.2): the rules are
"evaluated top-to-bottom; first match wins"; `none` is "(unknown, unknown)". -/
def detect (text : List Char) : Option (String × Option String) :=
  osRules.findSome? (fun rule => rule text)

/-- Modelled from the spec: the OS-release parser of `parseFiles.go` (sections 4.1, 4.2): the
OS family and, when detected, the edition. -/
def parseOSRelease (content : List Char) : List (Field × String) :=
  match detect content with
  | none => []
  | some (family, edition) =>
    (Field.os, family) ::
      (match edition with
       | some e => [(Field.os_edition, e)]
       | none => [])

/-- Modelled from the spec: the three file parsers of `parseFiles.go` (section 4.1). -/
inductive ParserKind where
  | kernel | hardware | osRelease
deriving DecidableEq, Repr

/-- Modelled from the spec: the dispatch of `parseFiles.go` on the filename or command label
(section 4.1): "a label beginning with /bin/uname maps to the kernel parser;
/usr/sbin/dmidecode maps to the hardware parser; a release-file label maps to the OS-release
parser"; the release-file label of the test is /etc/redhat-release. -/
def dispatch (label : String) : Option ParserKind :=
  if "/bin/uname".toList.isPrefixOf label.toList then some .kernel
  else if "/usr/sbin/dmidecode".toList.isPrefixOf label.toList then some .hardware
  else if label = "/etc/redhat-release" then some .osRelease
  else none

/-- Modelled from the spec: the contract `parse(filenameLabel, content)` of the file parsers of
`parseFiles.go` (section 4.1): total, and no pairs for a label that is not recognised. -/
def parse (label content : String) : List (Field × String) :=
  match dispatch label with
  | some .kernel => parseKernel content.toList
  | some .hardware => parseHardware content.toList
  | some .osRelease => parseOSRelease content.toList
  | none => []

/-- A column of a `hostinfo` row. -/
def HostInfo.get (h : HostInfo) : Field → Option String
  | .kernel => h.kernel
  | .vendor => h.vendor
  | .model => h.model
  | .serialno => h.serialno
  | .os => h.os
  | .os_edition => h.os_edition

/-- A `hostinfo` row with one column replaced. -/
def HostInfo.set (h : HostInfo) (fld : Field) (v : Option String) : HostInfo :=
  match fld with
  | .kernel => { h with kernel := v }
  | .vendor => { h with vendor := v }
  | .model => { h with model := v }
  | .serialno => { h with serialno := v }
  | .os => { h with os := v }
  | .os_edition => { h with os_edition := v }

/-- Modelled from the spec: the `hostinfo` row created for a fingerprint that has none
(section 4.3, "creating the HostInfo row if absent"): no attribute is known yet. -/
def HostInfo.blank (certfp : String) : HostInfo :=
  { certfp := certfp, age := none, kernel := none, vendor := none, model := none,
    serialno := none, os := none, os_edition := none }

/-- Modelled from the spec: the upsert of one parsed field by `parseFile` (section 4.3):
"upserts each returned field into HostInfo for that identity, creating the HostInfo row if
absent". -/
def upsert (db : DB) (certfp : String) (fld : Field) (v : String) : DB :=
  if db.hostinfo.any (fun h => decide (h.certfp = certfp)) then
    { db with hostinfo :=
        db.hostinfo.map (fun h => if h.certfp = certfp then h.set fld (some v) else h) }
  else
    { db with hostinfo := db.hostinfo ++ [(HostInfo.blank certfp).set fld (some v)] }

/-- Modelled from the spec: the reset of the OS columns by `parseFile` (section 4.3): "before
invoking the OS-release parser path, it must clear the OS family/edition fields for that host
identity". -/
def clearOS (db : DB) (certfp : String) : DB :=
  { db with hostinfo :=
      db.hostinfo.map (fun h =>
        if h.certfp = certfp then (h.set .os none).set .os_edition none else h) }

/-- Modelled from the spec: the function `parseFile` of `parseFiles.go` (section 4.3): it
"loads the UploadedFile row by id, determines the target host identity, dispatches to the
matching File Parser, and upserts each returned field into HostInfo for that identity". -/
def parseFile (db : DB) (fileID : Int) : DB :=
  match db.files.find? (fun f => decide (f.fileid = fileID)) with
  | none => db
  | some f =>
    (parse f.filename f.content).foldl (fun acc p => upsert acc f.certfp p.1 p.2)
      (if dispatch f.filename = some .osRelease then clearOS db f.certfp else db)

/-- Modelled from the spec: the key of table `files`, whose schema, `init.sql`, is not part of
the sources: the id identifies an UploadedFile (section 3), and `parseFile` loads a row by
its id (section 4.3). -/
def DB.fileidUnique (db : DB) : Prop :=
  (db.files.map (fun f => f.fileid)).Nodup

instance (db : DB) : Decidable db.fileidUnique := by
  unfold DB.fileidUnique; infer_instance

/-- Modelled from the spec: the selection policy of `parseFilesJob.Run` in `parseFiles.go`
(section 4.3): an upload is "not yet reflected in HostInfo" when it is a "current" row "newer
than the host's last processed timestamp"; for a host without row, or without such a
timestamp, nothing was processed. -/
def isPending (db : DB) (f : UploadedFile) : Bool :=
  f.current &&
    db.hostinfo.all (fun h =>
      decide (h.certfp ≠ f.certfp) ||
        match h.processed with
        | none => true
        | some t => decide (t < f.received))

/-- Modelled from the spec: "arrival order" (section 4.3), by the received timestamp of the
uploads. -/
def arrivedNoLater (f g : UploadedFile) : Prop := f.received ≤ g.received

instance : DecidableRel arrivedNoLater :=
  fun f g => inferInstanceAs (Decidable (f.received ≤ g.received))

instance : IsTotal UploadedFile arrivedNoLater :=
  ⟨fun f g => le_total f.received g.received⟩

instance : IsTrans UploadedFile arrivedNoLater :=
  ⟨fun _ _ _ h1 h2 => le_trans h1 h2⟩

/-- Modelled from the spec: the rows `parseFilesJob.Run` of `parseFiles.go` selects
(section 4.3): "all UploadedFile rows not yet reflected in HostInfo", "in arrival order";
uploads received at the same time keep the order of the table. -/
def pendingFiles (db : DB) : List UploadedFile :=
  (db.files.filter (isPending db)).insertionSort arrivedNoLater

/-- Modelled from the spec: the method `parseFilesJob.Run` of `parseFiles.go` (section 4.3):
it "selects all UploadedFile rows not yet reflected in HostInfo and calls parseFile for each,
in arrival order, last-write-wins per field per host".  The rows are selected before the
first of them is parsed; a run without database error is modelled. -/
def parseFilesJob.Run (db : DB) : DB :=
  ((pendingFiles db).map (fun f => f.fileid)).foldl parseFile db

/-! ## Auxiliary definitions for the proofs -/

/-- The body of the loop of `Run` for one successfully scanned row. -/
def body (a d : Int) (s : RunState) (r : String × Option Int) : RunState :=
  let s := { s with err := none }
  if daysOf r.2 ≥ d then
    let s := (s.exec (.deleteHostinfo r.1)).exec (.deleteFiles r.1)
    { s with dcount := s.dcount + 1 }
  else if daysOf r.2 ≥ a then
    let s := (s.exec (.updateFilesNotCurrent r.1)).exec (.deleteHostinfo r.1)
    { s with acount := s.acount + 1 }
  else s

/-- The rows reached before the first failing scan, together with that error; `none` when
every scan succeeds. -/
def firstScanErr {α : Type} (scanErr : Nat → Option String) :
    Nat → List α → Option (List α × String)
  | _, [] => none
  | i, r :: rest =>
    match scanErr i with
    | some e => some ([], e)
    | none => (firstScanErr scanErr (i + 1) rest).map (fun p => (r :: p.1, p.2))

/-- The result rows on which the loop body of `Run` is executed. -/
def reached (drv : Driver) (db : DB) : List (String × Option Int) :=
  match firstScanErr drv.scanErr 0 (query db) with
  | none => query db
  | some (P, _) => P

/-- Some row of `P` with fingerprint `c` takes the delete branch. -/
def isDel (d : Int) (P : List (String × Option Int)) (c : String) : Bool :=
  P.any (fun r => decide (r.1 = c) && decide (daysOf r.2 ≥ d))

/-- Some row of `P` with fingerprint `c` takes the archive branch. -/
def isArch (a d : Int) (P : List (String × Option Int)) (c : String) : Bool :=
  P.any (fun r => decide (r.1 = c) && (decide (daysOf r.2 < d) && decide (daysOf r.2 ≥ a)))

/-- The statements the loop body issues for one row. -/
def stmtsOf (a d : Int) (r : String × Option Int) : List Stmt :=
  if daysOf r.2 ≥ d then [.deleteHostinfo r.1, .deleteFiles r.1]
  else if daysOf r.2 ≥ a then [.updateFilesNotCurrent r.1, .deleteHostinfo r.1]
  else []

/-- The state of `Run` when the loop starts. -/
def init (db : DB) : RunState :=
  { db := db, acount := 0, dcount := 0, err := none, issued := [], log := [] }

/-- Every `hostinfo` row of host `c` carries value `v` in column `fld`, and there is such a
row. -/
def fieldIs (db : DB) (c : String) (fld : Field) (v : String) : Prop :=
  (∃ h ∈ db.hostinfo, h.certfp = c) ∧ ∀ h ∈ db.hostinfo, h.certfp = c → h.get fld = some v

instance (db : DB) (c : String) (fld : Field) (v : String) : Decidable (fieldIs db c fld v) := by
  unfold fieldIs; infer_instance

/-- The parser that produces a given column. -/
def fieldKind : Field → ParserKind
  | .kernel => .kernel
  | .vendor => .hardware
  | .model => .hardware
  | .serialno => .hardware
  | .os => .osRelease
  | .os_edition => .osRelease

/-- A line of a dmidecode section: a tab, the key, a colon, a space and the value. -/
def dmiLine (key value : String) : List Char :=
  '\t' :: (key.toList ++ ':' :: ' ' :: value.toList)

/-- Section `sec` has the line `key: value`, and every line of `sec` with that key carries
that value. -/
def sectionValue (sec : List (List Char)) (key value : String) : Prop :=
  dmiLine key value ∈ sec ∧
    ∀ l ∈ sec, (keyValue l).map Prod.fst = some key.toList →
      (keyValue l).map Prod.snd = some value.toList

instance (sec : List (List Char)) (key value : String) : Decidable (sectionValue sec key value) := by
  unfold sectionValue; infer_instance

/-! ## Sample data -/

/-- A `hostinfo` row with the given fingerprint and age and no derived attribute. -/
def sampleHost (certfp : String) (age : Option Int) : HostInfo :=
  { certfp := certfp, age := age, kernel := none, vendor := none, model := none,
    serialno := none, os := none, os_edition := none }

/-- A current `files` row of the given host. -/
def sampleFile (fileid : Int) (certfp : String) : UploadedFile :=
  { fileid := fileid, certfp := certfp, filename := "/bin/uname -r",
    content := "4.15.13-300.fc27.x86_64", received := 0, current := true }

/-- Four hosts, aged 100, 40 and 5 days and never seen, with one file each, and a file of a
host without `hostinfo` row. -/
def sampleDB : DB :=
  { hostinfo := [sampleHost "aa" (some 100), sampleHost "bb" (some 40),
                 sampleHost "cc" (some 5), sampleHost "dd" none],
    files := [sampleFile 1 "aa", sampleFile 2 "bb", sampleFile 3 "cc", sampleFile 4 "dd",
              sampleFile 5 "ee"] }

/-- A driver whose scan of the second result row fails. -/
def scanFailsAtSecondRow : Driver :=
  { queryErr := none, scanErr := fun i => if i = 1 then some "sql: Scan error" else none }

/-- A driver whose query fails. -/
def queryFails : Driver :=
  { queryErr := some "connection refused", scanErr := fun _ => none }

/-- The constant `dmiDecodeOutput` of `parseFiles_test.go`. -/
def dmiDecodeOutput : String :=
  String.join [
    "# dmidecode 3.1\n",
    "Getting SMBIOS data from sysfs.\n",
    "SMBIOS 2.7 present.\n",
    "\n",
    "Handle 0x0001, DMI type 1, 27 bytes\n",
    "System Information\n",
    "\tManufacturer: Dell Inc.\n",
    "\tProduct Name: Latitude E7240\n",
    "\tVersion: 01\n",
    "\tSerial Number: AFK5678\n",
    "\tUUID: 4C4C4544-0054-4B10-804E-CAC04F565931\n",
    "\tWake-up Type: Power Switch\n",
    "\tSKU Number: Latitude E7240\n",
    "\tFamily: Not Specified\n",
    "\n",
    "Handle 0x0024, DMI type 12, 5 bytes\n",
    "System Configuration Options\n",
    "\tOption 1: To Be Filled By O.E.M.\n",
    "\n",
    "Handle 0x0025, DMI type 15, 35 bytes\n",
    "System Event Log\n",
    "\tArea Length: 4 bytes\n",
    "\tHeader Start Offset: 0x0000\n",
    "\tHeader Length: 2 bytes\n",
    "\tData Start Offset: 0x0002\n",
    "\tAccess Method: Indexed I/O, one 16-bit index port, one 8-bit data port\n",
    "\tAccess Address: Index 0x046A, Data 0x046C\n",
    "\tStatus: Invalid, Not Full\n",
    "\tChange Token: 0x00000000\n",
    "\tHeader Format: No Header\n",
    "\tSupported Log Type Descriptors: 6\n",
    "\tDescriptor 1: End of log\n",
    "\tData Format 1: OEM-specific\n",
    "\tDescriptor 2: End of log\n",
    "\tData Format 2: OEM-specific\n",
    "\tDescriptor 3: End of log\n",
    "\tData Format 3: OEM-specific\n",
    "\tDescriptor 4: End of log\n",
    "\tData Format 4: OEM-specific\n",
    "\tDescriptor 5: End of log\n",
    "\tData Format 5: OEM-specific\n",
    "\tDescriptor 6: End of log\n",
    "\tData Format 6: OEM-specific\n",
    "\n",
    "Handle 0x002D, DMI type 32, 20 bytes\n",
    "System Boot Information\n",
    "\tStatus: No errors detected\n"]

/-- The lines of `dmiDecodeOutput` before the header "System Information". -/
def dmiBefore : List (List Char) :=
  (splitLines dmiDecodeOutput.toList).take 5

/-- The lines of the "System Information" section of `dmiDecodeOutput`. -/
def dmiSection : List (List Char) :=
  ((splitLines dmiDecodeOutput.toList).drop 6).take 8

/-- The lines of `dmiDecodeOutput` after its "System Information" section. -/
def dmiAfter : List (List Char) :=
  (splitLines dmiDecodeOutput.toList).drop 14

/-- The upload of `/bin/uname -r` of `TestParseFile`. -/
def unameFile : UploadedFile :=
  { fileid := 1, certfp := "1234", filename := "/bin/uname -r",
    content := "4.15.13-300.fc27.x86_64", received := 0, current := true }

/-- The upload of `/usr/sbin/dmidecode -t system` of `TestParseFile`. -/
def dmiFile : UploadedFile :=
  { fileid := 2, certfp := "1234", filename := "/usr/sbin/dmidecode -t system",
    content := dmiDecodeOutput, received := 0, current := true }

/-- The database of `TestParseFile` when the job runs: no host, two uploads. -/
def testDB : DB := { hostinfo := [], files := [unameFile, dmiFile] }

/-- A host with a known kernel and a new upload of `/bin/uname -r` without content. -/
def blankUnameDB : DB :=
  { hostinfo := [{ (HostInfo.blank "1234") with kernel := some "4.14.0", processed := some 0 }],
    files := [{ fileid := 1, certfp := "1234", filename := "/bin/uname -r",
                content := " \n", received := 1, current := true }] }

/-- A behaviour of `rows.Next`: the call for the second result row fails. -/
def nextFailsAtSecondRow : Nat → Bool := fun i => decide (i = 1)

/-- A behaviour of `rows.Next`: no call fails. -/
def nextOk : Nat → Bool := fun _ => false

/-- An upload of `/bin/uname -r` whose content has white space around the version. -/
def paddedUnameFile : UploadedFile :=
  { fileid := 7, certfp := "5678", filename := "/bin/uname -r",
    content := "  4.15.13-300.fc27.x86_64\n", received := 4, current := true }

/-- A host that processed its uploads up to time 2, with three uploads: a release file
received at time 2, an upload of `/bin/uname -r` received at time 3 that is no longer
current, and the current one, received at time 4. -/
def paddedUnameDB : DB :=
  { hostinfo := [{ (HostInfo.blank "5678") with
                   kernel := some "4.14.0", os := some "Fedora 27", processed := some 2 }],
    files := [{ fileid := 5, certfp := "5678", filename := "/etc/redhat-release",
                content := "Fedora release 27 (Twenty Seven)", received := 2, current := true },
              { fileid := 6, certfp := "5678", filename := "/bin/uname -r",
                content := "4.15.0\n", received := 3, current := false },
              paddedUnameFile] }

/-- A hardware dump that is no longer current. -/
def supersededDmiFile : UploadedFile :=
  { fileid := 4, certfp := "1234", filename := "/usr/sbin/dmidecode -t system",
    content := "System Information\n\tManufacturer: Other Corp.\n", received := 6,
    current := false }

/-- The hardware dump of `TestParseFile`, uploaded again at time 7. -/
def laterDmiFile : UploadedFile :=
  { fileid := 5, certfp := "1234", filename := "/usr/sbin/dmidecode -t system",
    content := dmiDecodeOutput, received := 7, current := true }

/-- A host that processed its uploads up to time 5, with the uname upload of `TestParseFile`
(time 0), a hardware dump received at time 6 that is no longer current, and the current one,
received at time 7. -/
def laterDmiDB : DB :=
  { hostinfo := [{ (HostInfo.blank "1234") with
                   kernel := some "4.15.13-300.fc27.x86_64", vendor := some "Other Corp.",
                   processed := some 5 }],
    files := [unameFile, supersededDmiFile, laterDmiFile] }

/-- An upload of `/etc/redhat-release` of the form "Fedora release N (...)" whose parenthesis
holds a Red Hat Enterprise Linux release text. -/
def nestedFedoraFile : UploadedFile :=
  { fileid := 10000, certfp := "AA11", filename := "/etc/redhat-release",
    content := "Fedora release 27 (Red Hat Enterprise Linux Server release 7.4)",
    received := 0, current := true }

/-- The first upload of `testOSdetection`. -/
def rhelFile : UploadedFile :=
  { fileid := 10000, certfp := "AA11", filename := "/etc/redhat-release",
    content := "Red Hat Enterprise Linux Workstation release 7.4 (Maipo)",
    received := 0, current := true }

/-- The second upload of `testOSdetection`. -/
def fedoraFile : UploadedFile :=
  { fileid := 10000, certfp := "AA11", filename := "/etc/redhat-release",
    content := "Fedora release 27 (Twenty Seven)", received := 0, current := true }

/-! ## Lemmas about the loop -/

theorem rowsLoop_eq (scanErr : Nat → Option String) (a d : Int) :
    ∀ (rows : List (String × Option Int)) (i : Nat) (s : RunState),
      rowsLoop scanErr a d i rows s =
        match firstScanErr scanErr i rows with
        | none => (false, rows.foldl (body a d) s)
        | some (P, e) =>
          (true, { P.foldl (body a d) s with
                    err := some e, log := (P.foldl (body a d) s).log ++ [.error e] })
  | [], i, s => by simp [rowsLoop, firstScanErr]
  | (c, v) :: rest, i, s => by
    cases hs : scanErr i with
    | some e => simp [rowsLoop, firstScanErr, hs]
    | none =>
      simp only [rowsLoop, firstScanErr, hs, List.foldl_cons]
      by_cases h1 : daysOf v ≥ d
      · rw [if_pos h1, rowsLoop_eq scanErr a d rest (i + 1)]
        cases firstScanErr scanErr (i + 1) rest <;> simp [body, h1]
      · rw [if_neg h1]
        by_cases h2 : daysOf v ≥ a
        · rw [if_pos h2, rowsLoop_eq scanErr a d rest (i + 1)]
          cases firstScanErr scanErr (i + 1) rest <;> simp [body, h1, h2]
        · rw [if_neg h2, rowsLoop_eq scanErr a d rest (i + 1)]
          cases firstScanErr scanErr (i + 1) rest <;> simp [body, h1, h2]

theorem notCurrent_certfp (f : UploadedFile) : f.notCurrent.certfp = f.certfp := rfl

theorem notCurrent_idem (f : UploadedFile) : f.notCurrent.notCurrent = f.notCurrent := rfl

theorem fold_hostinfo (a d : Int) :
    ∀ (P : List (String × Option Int)) (s : RunState),
      (P.foldl (body a d) s).db.hostinfo =
        s.db.hostinfo.filter (fun h => !isDel d P h.certfp && !isArch a d P h.certfp)
  | [], s => by simp [isDel, isArch]
  | r :: P, s => by
    rw [List.foldl_cons, fold_hostinfo a d P]
    by_cases h1 : daysOf r.2 ≥ d
    · simp only [body, if_pos h1, RunState.exec, DB.exec, List.filter_filter]
      apply List.filter_congr
      intro h _
      by_cases hc : r.1 = h.certfp
      · simp [isDel, isArch, h1, hc]
      · have hc2 : ¬ h.certfp = r.1 := fun e => hc e.symm
        simp [isDel, isArch, h1, hc, hc2]
    · by_cases h2 : daysOf r.2 ≥ a
      · simp only [body, if_neg h1, if_pos h2, RunState.exec, DB.exec, List.filter_filter]
        apply List.filter_congr
        intro h _
        by_cases hc : r.1 = h.certfp
        · simp [isDel, isArch, h1, h2, hc, lt_of_not_ge h1]
        · have hc2 : ¬ h.certfp = r.1 := fun e => hc e.symm
          simp [isDel, isArch, h1, h2, hc, hc2]
      · simp only [body, if_neg h1, if_neg h2]
        apply List.filter_congr
        intro h _
        simp [isDel, isArch, h1, h2]

theorem fold_files (a d : Int) :
    ∀ (P : List (String × Option Int)) (s : RunState),
      (P.foldl (body a d) s).db.files =
        (s.db.files.filter (fun f => !isDel d P f.certfp)).map
          (fun f => if isArch a d P f.certfp then f.notCurrent else f)
  | [], s => by simp [isDel, isArch]
  | r :: P, s => by
    rw [List.foldl_cons, fold_files a d P]
    by_cases h1 : daysOf r.2 ≥ d
    · simp only [body, if_pos h1, RunState.exec, DB.exec, List.filter_filter]
      have hf : List.filter (fun f : UploadedFile => (!isDel d P f.certfp) && decide (f.certfp ≠ r.1)) s.db.files
          = List.filter (fun f => !isDel d (r :: P) f.certfp) s.db.files := by
        apply List.filter_congr
        intro f _
        by_cases hc : r.1 = f.certfp
        · simp [isDel, h1, hc]
        · have hc2 : ¬ f.certfp = r.1 := fun e => hc e.symm
          simp [isDel, h1, hc, hc2]
      rw [hf]
      apply List.map_congr_left
      intro f hfm
      have hnd : isDel d (r :: P) f.certfp = false := by
        simpa using (List.mem_filter.mp hfm).2
      have : isArch a d (r :: P) f.certfp = isArch a d P f.certfp := by
        simp [isArch, not_lt.mpr h1]
      rw [this]
    · by_cases h2 : daysOf r.2 ≥ a
      · simp only [body, if_neg h1, if_pos h2, RunState.exec, DB.exec]
        have e1 : ∀ c, isDel d (r :: P) c = isDel d P c := by
          intro c; simp [isDel, h1]
        simp only [e1, List.filter_map, List.map_map]
        have hf : List.filter ((fun f : UploadedFile => !isDel d P f.certfp) ∘
              fun f => if f.certfp = r.1 then f.notCurrent else f) s.db.files
            = List.filter (fun f => !isDel d P f.certfp) s.db.files := by
          apply List.filter_congr
          intro f _
          by_cases hc : f.certfp = r.1 <;> simp [hc, notCurrent_certfp]
        rw [hf]
        apply List.map_congr_left
        intro f _
        by_cases hc : f.certfp = r.1
        · have hc2 : r.1 = f.certfp := hc.symm
          have : isArch a d (r :: P) f.certfp = true := by
            simp [isArch, hc2, h2, lt_of_not_ge h1]
          simp only [Function.comp, if_pos hc, this, notCurrent_certfp]
          by_cases hp : isArch a d P r.1 <;> simp [hp, hc, notCurrent_idem]
        · have hc2 : ¬ r.1 = f.certfp := fun e => hc e.symm
          have : isArch a d (r :: P) f.certfp = isArch a d P f.certfp := by
            simp [isArch, hc2]
          simp only [Function.comp, if_neg hc, this]
      · simp only [body, if_neg h1, if_neg h2]
        have e1 : ∀ c, isDel d (r :: P) c = isDel d P c := by
          intro c; simp [isDel, h1]
        have e2 : ∀ c, isArch a d (r :: P) c = isArch a d P c := by
          intro c; simp [isArch, h2]
        simp only [e1, e2]

theorem fold_dcount (a d : Int) :
    ∀ (P : List (String × Option Int)) (s : RunState),
      (P.foldl (body a d) s).dcount =
        s.dcount + ((P.filter (fun r => decide (daysOf r.2 ≥ d))).length : Int)
  | [], s => by simp
  | r :: P, s => by
    rw [List.foldl_cons, fold_dcount a d P]
    by_cases h1 : daysOf r.2 ≥ d
    · simp [body, h1, RunState.exec]; ring
    · by_cases h2 : daysOf r.2 ≥ a <;> simp [body, h1, h2, RunState.exec]

theorem fold_acount (a d : Int) :
    ∀ (P : List (String × Option Int)) (s : RunState),
      (P.foldl (body a d) s).acount =
        s.acount + ((P.filter
          (fun r => decide (daysOf r.2 < d) && decide (daysOf r.2 ≥ a))).length : Int)
  | [], s => by simp
  | r :: P, s => by
    rw [List.foldl_cons, fold_acount a d P]
    by_cases h1 : daysOf r.2 ≥ d
    · simp [body, h1, RunState.exec, not_lt.mpr h1]
    · by_cases h2 : daysOf r.2 ≥ a
      · simp [body, h1, h2, RunState.exec, lt_of_not_ge h1]; ring
      · simp [body, h1, h2, RunState.exec]

theorem fold_issued (a d : Int) :
    ∀ (P : List (String × Option Int)) (s : RunState),
      (P.foldl (body a d) s).issued = s.issued ++ P.flatMap (stmtsOf a d)
  | [], s => by simp
  | r :: P, s => by
    rw [List.foldl_cons, fold_issued a d P]
    by_cases h1 : daysOf r.2 ≥ d
    · simp [body, h1, RunState.exec, stmtsOf]
    · by_cases h2 : daysOf r.2 ≥ a <;> simp [body, h1, h2, RunState.exec, stmtsOf]

theorem fold_log (a d : Int) :
    ∀ (P : List (String × Option Int)) (s : RunState),
      (P.foldl (body a d) s).log = s.log
  | [], s => by simp
  | r :: P, s => by
    rw [List.foldl_cons, fold_log a d P]
    by_cases h1 : daysOf r.2 ≥ d
    · simp [body, h1, RunState.exec]
    · by_cases h2 : daysOf r.2 ≥ a <;> simp [body, h1, h2, RunState.exec]

theorem fold_err (a d : Int) :
    ∀ (P : List (String × Option Int)) (s : RunState), s.err = none →
      (P.foldl (body a d) s).err = none
  | [], s, h => by simpa using h
  | r :: P, s, _ => by
    rw [List.foldl_cons]
    apply fold_err a d P
    by_cases h1 : daysOf r.2 ≥ d
    · simp [body, h1, RunState.exec]
    · by_cases h2 : daysOf r.2 ≥ a <;> simp [body, h1, h2, RunState.exec]

theorem firstScanErr_none {α : Type} (scanErr : Nat → Option String)
    (h : ∀ i, scanErr i = none) :
    ∀ (rows : List α) (i : Nat), firstScanErr scanErr i rows = none
  | [], i => rfl
  | r :: rest, i => by simp [firstScanErr, h i, firstScanErr_none scanErr h rest (i + 1)]

theorem firstScanErr_prefix {α : Type} (scanErr : Nat → Option String) :
    ∀ (rows : List α) (i : Nat) (P : List α) (e : String),
      firstScanErr scanErr i rows = some (P, e) → P <+: rows
  | [], i, P, e, h => by simp [firstScanErr] at h
  | r :: rest, i, P, e, h => by
    cases hs : scanErr i with
    | some e' =>
      simp [firstScanErr, hs] at h
      rw [h.1]; exact List.nil_prefix
    | none =>
      simp only [firstScanErr, hs] at h
      cases hr : firstScanErr scanErr (i + 1) rest with
      | none => simp [hr] at h
      | some p =>
        obtain ⟨P', e'⟩ := p
        simp [hr] at h
        have := firstScanErr_prefix scanErr rest (i + 1) P' e' hr
        rw [← h.1]
        exact (List.prefix_cons_inj r).mpr this

theorem reached_prefix (drv : Driver) (db : DB) : reached drv db <+: query db := by
  unfold reached
  cases h : firstScanErr drv.scanErr 0 (query db) with
  | none => exact List.prefix_refl _
  | some p => exact firstScanErr_prefix _ _ _ _ _ h

theorem reached_ok (drv : Driver) (db : DB) (h : ∀ i, drv.scanErr i = none) :
    reached drv db = query db := by
  simp [reached, firstScanErr_none drv.scanErr h]

/-- Shape of a run whose query succeeded. -/
theorem Run_eq (drv : Driver) (a d : Int) (db : DB) (hq : drv.queryErr = none) :
    Run drv a d db =
      match firstScanErr drv.scanErr 0 (query db) with
      | none =>
        let s := (query db).foldl (body a d) (init db)
        if s.acount > 0 ∨ s.dcount > 0 then
          { s with log := [.summary s.acount s.dcount] }
        else s
      | some (P, e) =>
        { P.foldl (body a d) (init db) with err := some e, log := [.error e] } := by
  unfold Run
  simp only [hq]
  rw [rowsLoop_eq]
  cases h : firstScanErr drv.scanErr 0 (query db) with
  | none =>
    have he := fold_err a d (query db) (init db) rfl
    have hl := fold_log a d (query db) (init db)
    simp only [init] at he hl ⊢
    simp only [he, hl]
    simp
  | some p =>
    have hl := fold_log a d p.1 (init db)
    simp only [init] at hl ⊢
    simp [hl]

theorem Run_fields (drv : Driver) (a d : Int) (db : DB) (hq : drv.queryErr = none) :
    let s := (reached drv db).foldl (body a d) (init db)
    (Run drv a d db).db = s.db ∧ (Run drv a d db).acount = s.acount ∧
      (Run drv a d db).dcount = s.dcount ∧ (Run drv a d db).issued = s.issued := by
  rw [Run_eq drv a d db hq]
  unfold reached
  cases h : firstScanErr drv.scanErr 0 (query db) with
  | none =>
    simp only []
    split <;> simp
  | some p => simp

theorem Run_hostinfo (drv : Driver) (a d : Int) (db : DB) (hq : drv.queryErr = none) :
    (Run drv a d db).db.hostinfo = db.hostinfo.filter
      (fun h => !isDel d (reached drv db) h.certfp && !isArch a d (reached drv db) h.certfp) := by
  rw [(Run_fields drv a d db hq).1, fold_hostinfo]; rfl

theorem Run_files (drv : Driver) (a d : Int) (db : DB) (hq : drv.queryErr = none) :
    (Run drv a d db).db.files =
      (db.files.filter (fun f => !isDel d (reached drv db) f.certfp)).map
        (fun f => if isArch a d (reached drv db) f.certfp then f.notCurrent else f) := by
  rw [(Run_fields drv a d db hq).1, fold_files]; rfl

theorem Run_issued (drv : Driver) (a d : Int) (db : DB) (hq : drv.queryErr = none) :
    (Run drv a d db).issued = (reached drv db).flatMap (stmtsOf a d) := by
  rw [(Run_fields drv a d db hq).2.2.2, fold_issued]; rfl

theorem Run_dcount (drv : Driver) (a d : Int) (db : DB) (hq : drv.queryErr = none) :
    (Run drv a d db).dcount =
      (((reached drv db).filter (fun r => decide (daysOf r.2 ≥ d))).length : Int) := by
  rw [(Run_fields drv a d db hq).2.2.1, fold_dcount]; simp [init]

theorem Run_acount (drv : Driver) (a d : Int) (db : DB) (hq : drv.queryErr = none) :
    (Run drv a d db).acount =
      (((reached drv db).filter
        (fun r => decide (daysOf r.2 < d) && decide (daysOf r.2 ≥ a))).length : Int) := by
  rw [(Run_fields drv a d db hq).2.1, fold_acount]; simp [init]

/-- A run whose query failed. -/
theorem Run_queryErr (drv : Driver) (a d : Int) (db : DB) (e : String)
    (hq : drv.queryErr = some e) :
    Run drv a d db =
      { db := db, acount := 0, dcount := 0, err := some e, issued := [], log := [.error e] } := by
  unfold Run; simp [hq]

theorem isDel_iff (d : Int) (P : List (String × Option Int)) (c : String) :
    isDel d P c = true ↔ ∃ v, (c, v) ∈ P ∧ daysOf v ≥ d := by
  simp only [isDel, List.any_eq_true, Bool.and_eq_true, decide_eq_true_eq]
  constructor
  · rintro ⟨⟨c', v⟩, hm, rfl, hd⟩; exact ⟨v, hm, hd⟩
  · rintro ⟨v, hm, hd⟩; exact ⟨(c, v), hm, rfl, hd⟩

theorem isArch_iff (a d : Int) (P : List (String × Option Int)) (c : String) :
    isArch a d P c = true ↔ ∃ v, (c, v) ∈ P ∧ daysOf v < d ∧ daysOf v ≥ a := by
  simp only [isArch, List.any_eq_true, Bool.and_eq_true, decide_eq_true_eq]
  constructor
  · rintro ⟨⟨c', v⟩, hm, rfl, hd⟩; exact ⟨v, hm, hd⟩
  · rintro ⟨v, hm, hd⟩; exact ⟨(c, v), hm, rfl, hd⟩

theorem mem_query (db : DB) (c : String) (v : Option Int) :
    (c, v) ∈ query db ↔ ∃ h ∈ db.hostinfo, h.certfp = c ∧ h.age = v := by
  simp [query]

/-- With one row per fingerprint, the fingerprint determines the scanned age. -/
theorem age_of_unique (db : DB) (hu : db.certfpUnique) (h : HostInfo) (hm : h ∈ db.hostinfo)
    (v : Option Int) (hv : (h.certfp, v) ∈ query db) : v = h.age := by
  obtain ⟨h', hm', hc, ha⟩ := (mem_query db _ _).mp hv
  have := List.inj_on_of_nodup_map hu hm' hm hc
  rw [← ha, this]

theorem mem_stmts_deleteFiles (a d : Int) (P : List (String × Option Int)) (c : String) :
    Stmt.deleteFiles c ∈ P.flatMap (stmtsOf a d) ↔ isDel d P c = true := by
  rw [isDel_iff]
  simp only [List.mem_flatMap]
  constructor
  · rintro ⟨⟨c', v⟩, hm, hs⟩
    unfold stmtsOf at hs
    split at hs
    · simp at hs; subst hs; exact ⟨v, hm, by assumption⟩
    · split at hs <;> simp at hs
  · rintro ⟨v, hm, hd⟩
    exact ⟨(c, v), hm, by simp [stmtsOf, hd]⟩

theorem mem_stmts_update (a d : Int) (P : List (String × Option Int)) (c : String) :
    Stmt.updateFilesNotCurrent c ∈ P.flatMap (stmtsOf a d) ↔ isArch a d P c = true := by
  rw [isArch_iff]
  simp only [List.mem_flatMap]
  constructor
  · rintro ⟨⟨c', v⟩, hm, hs⟩
    unfold stmtsOf at hs
    split at hs
    · simp at hs
    · rename_i h1
      split at hs
      · rename_i h2
        simp at hs; subst hs; exact ⟨v, hm, lt_of_not_ge h1, h2⟩
      · simp at hs
  · rintro ⟨v, hm, hd, ha⟩
    exact ⟨(c, v), hm, by simp [stmtsOf, not_le.mpr hd, ha]⟩

theorem mem_stmts_deleteHostinfo (a d : Int) (P : List (String × Option Int)) (c : String) :
    Stmt.deleteHostinfo c ∈ P.flatMap (stmtsOf a d) ↔
      (isDel d P c = true ∨ isArch a d P c = true) := by
  rw [isArch_iff, isDel_iff]
  simp only [List.mem_flatMap]
  constructor
  · rintro ⟨⟨c', v⟩, hm, hs⟩
    unfold stmtsOf at hs
    split at hs
    · rename_i h1
      simp at hs; subst hs; exact Or.inl ⟨v, hm, h1⟩
    · rename_i h1
      split at hs
      · rename_i h2
        simp at hs; subst hs; exact Or.inr ⟨v, hm, lt_of_not_ge h1, h2⟩
      · simp at hs
  · rintro (⟨v, hm, hd⟩ | ⟨v, hm, hd, ha⟩)
    · exact ⟨(c, v), hm, by simp [stmtsOf, hd]⟩
    · exact ⟨(c, v), hm, by simp [stmtsOf, not_le.mpr hd, ha]⟩

theorem query_filter_length (db : DB) (p : Int → Bool) :
    ((query db).filter (fun r => p (daysOf r.2))).length =
      (db.hostinfo.filter (fun h => p h.days)).length := by
  unfold query
  rw [List.filter_map, List.length_map]
  rfl

/-- C1. Delete is checked before archive.  In a run whose query and scans succeed, every
scanned host row with `days ≥ deleteDayLimit` is deleted, whatever `archiveDayLimit` is: no
`hostinfo` row and no `files` row with its fingerprint is left, both DELETE statements are
issued for it, and the counters are the number of rows with `days ≥ deleteDayLimit`
(`dcount`) and the number of rows with `archiveDayLimit ≤ days < deleteDayLimit` (`acount`),
so that a host past both limits is counted as deleted and not as archived. -/
theorem delete_checked_before_archive (drv : Driver) (archiveDayLimit deleteDayLimit : Int)
    (db : DB) (hq : drv.queryErr = none) (hs : ∀ i, drv.scanErr i = none)
    (h : HostInfo) (hm : h ∈ db.hostinfo) (hd : h.days ≥ deleteDayLimit) :
    (∀ h' ∈ (Run drv archiveDayLimit deleteDayLimit db).db.hostinfo, h'.certfp ≠ h.certfp) ∧
    (∀ f ∈ (Run drv archiveDayLimit deleteDayLimit db).db.files, f.certfp ≠ h.certfp) ∧
    Stmt.deleteHostinfo h.certfp ∈ (Run drv archiveDayLimit deleteDayLimit db).issued ∧
    Stmt.deleteFiles h.certfp ∈ (Run drv archiveDayLimit deleteDayLimit db).issued ∧
    (Run drv archiveDayLimit deleteDayLimit db).dcount =
      ((db.hostinfo.filter (fun x => decide (x.days ≥ deleteDayLimit))).length : Int) ∧
    (Run drv archiveDayLimit deleteDayLimit db).acount =
      ((db.hostinfo.filter (fun x =>
        decide (x.days < deleteDayLimit) && decide (x.days ≥ archiveDayLimit))).length : Int) := by
  have hr := reached_ok drv db hs
  have hdel : isDel deleteDayLimit (query db) h.certfp = true :=
    (isDel_iff _ _ _).mpr ⟨h.age, (mem_query db _ _).mpr ⟨h, hm, rfl, rfl⟩, hd⟩
  refine ⟨?_, ?_, ?_, ?_, ?_, ?_⟩
  · intro h' hm' hc
    rw [Run_hostinfo drv _ _ db hq, hr, List.mem_filter] at hm'
    rw [hc, hdel] at hm'
    simp at hm'
  · intro f hf hc
    rw [Run_files drv _ _ db hq, hr, List.mem_map] at hf
    obtain ⟨g, hg, hgf⟩ := hf
    rw [List.mem_filter] at hg
    have : g.certfp = h.certfp := by
      rw [← hc, ← hgf]; split <;> rfl
    rw [this, hdel] at hg
    simp at hg
  · rw [Run_issued drv _ _ db hq, hr, mem_stmts_deleteHostinfo]; exact Or.inl hdel
  · rw [Run_issued drv _ _ db hq, hr, mem_stmts_deleteFiles]; exact hdel
  · rw [Run_dcount drv _ _ db hq, hr]
    exact congrArg _ (query_filter_length db (fun n => decide (n ≥ deleteDayLimit)))
  · rw [Run_acount drv _ _ db hq, hr]
    exact congrArg _ (query_filter_length db
      (fun n => decide (n < deleteDayLimit) && decide (n ≥ archiveDayLimit)))

/-- C1 at the sample database with limits 90 (archive) and 30 (delete): host "aa", 100 days
old, is past both limits. -/
theorem delete_checked_before_archive_witness :
    sampleHost "aa" (some 100) ∈ sampleDB.hostinfo ∧ (sampleHost "aa" (some 100)).days ≥ 30 ∧
    (∀ h' ∈ (Run Driver.ok 90 30 sampleDB).db.hostinfo, h'.certfp ≠ "aa") ∧
    (∀ f ∈ (Run Driver.ok 90 30 sampleDB).db.files, f.certfp ≠ "aa") :=
  have t := delete_checked_before_archive Driver.ok 90 30 sampleDB rfl (fun _ => rfl)
    (sampleHost "aa" (some 100)) (by decide) (by decide)
  ⟨by decide, by decide, t.1, t.2.1⟩

/-- With one row per fingerprint, a host below the delete limit is not hit by a delete. -/
theorem isDel_false_of_unique (db : DB) (hu : db.certfpUnique) (d : Int)
    (P : List (String × Option Int)) (hP : P <+: query db)
    (h : HostInfo) (hm : h ∈ db.hostinfo) (hd : h.days < d) :
    isDel d P h.certfp = false := by
  rw [Bool.eq_false_iff]
  intro hc
  obtain ⟨v, hv, hvd⟩ := (isDel_iff _ _ _).mp hc
  have := age_of_unique db hu h hm v (hP.subset hv)
  subst this
  exact absurd hvd (not_le.mpr hd)

theorem isArch_false_of_unique (db : DB) (hu : db.certfpUnique) (a d : Int)
    (P : List (String × Option Int)) (hP : P <+: query db)
    (h : HostInfo) (hm : h ∈ db.hostinfo) (hd : h.days < a ∨ h.days ≥ d) :
    isArch a d P h.certfp = false := by
  rw [Bool.eq_false_iff]
  intro hc
  obtain ⟨v, hv, hvd, hva⟩ := (isArch_iff _ _ _ _).mp hc
  have := age_of_unique db hu h hm v (hP.subset hv)
  subst this
  rcases hd with hd | hd
  · exact absurd hva (not_le.mpr hd)
  · exact absurd hd (not_le.mpr hvd)

/-- The files of one fingerprint after a run. -/
theorem Run_files_of (drv : Driver) (a d : Int) (db : DB) (hq : drv.queryErr = none)
    (c : String) :
    (Run drv a d db).db.files.filter (fun f => decide (f.certfp = c)) =
      if isDel d (reached drv db) c then []
      else if isArch a d (reached drv db) c then
        (db.files.filter (fun f => decide (f.certfp = c))).map UploadedFile.notCurrent
      else db.files.filter (fun f => decide (f.certfp = c)) := by
  rw [Run_files drv a d db hq, List.filter_map, List.filter_filter]
  have hf : List.filter (fun f : UploadedFile =>
        ((fun f : UploadedFile => decide (f.certfp = c)) ∘
          fun f => if isArch a d (reached drv db) f.certfp = true then f.notCurrent else f) f &&
        !isDel d (reached drv db) f.certfp) db.files =
      List.filter (fun f => !isDel d (reached drv db) c)
        (db.files.filter (fun f => decide (f.certfp = c))) := by
    rw [List.filter_filter]
    apply List.filter_congr
    intro f _
    by_cases hc : f.certfp = c
    · by_cases hx : isArch a d (reached drv db) f.certfp = true <;>
        simp [hc, hx, notCurrent_certfp] <;> simp [← hc, hx, notCurrent_certfp]
    · by_cases hx : isArch a d (reached drv db) f.certfp = true <;>
        simp [hc, hx, notCurrent_certfp]
  rw [hf]
  by_cases h1 : isDel d (reached drv db) c = true
  · simp [h1]
  · simp only [Bool.not_eq_true] at h1
    simp only [h1, Bool.not_false, List.filter_true]
    rw [if_neg (by simp)]
    by_cases h2 : isArch a d (reached drv db) c = true
    · rw [if_pos h2]
      apply List.map_congr_left
      intro f hfm
      have : f.certfp = c := by simpa using (List.mem_filter.mp hfm).2
      simp [this, h2]
    · rw [if_neg h2]
      conv_rhs => rw [← List.map_id (List.filter (fun f => decide (f.certfp = c)) db.files)]
      apply List.map_congr_left
      intro f hfm
      have : f.certfp = c := by simpa using (List.mem_filter.mp hfm).2
      simp [this, h2]

/-- C2. Archive.  In a run whose query and scans succeed, with one `hostinfo` row per
fingerprint, every scanned host row with `archiveDayLimit ≤ days < deleteDayLimit` is
archived: no `hostinfo` row with its fingerprint is left; its `files` rows after the run are
exactly its `files` rows before the run with `current` set to false and everything else as
it was; every `files` row of the host has `current = false` afterwards and every former row
is still there; the UPDATE is issued for it and no DELETE on `files`. -/
theorem archive_keeps_files_not_current (drv : Driver) (archiveDayLimit deleteDayLimit : Int)
    (db : DB) (hq : drv.queryErr = none) (hs : ∀ i, drv.scanErr i = none)
    (hu : db.certfpUnique)
    (h : HostInfo) (hm : h ∈ db.hostinfo)
    (ha : archiveDayLimit ≤ h.days) (hd : h.days < deleteDayLimit) :
    (∀ h' ∈ (Run drv archiveDayLimit deleteDayLimit db).db.hostinfo, h'.certfp ≠ h.certfp) ∧
    (Run drv archiveDayLimit deleteDayLimit db).db.files.filter
        (fun f => decide (f.certfp = h.certfp)) =
      (db.files.filter (fun f => decide (f.certfp = h.certfp))).map
        (fun f => { f with current := false }) ∧
    (∀ f ∈ (Run drv archiveDayLimit deleteDayLimit db).db.files,
      f.certfp = h.certfp → f.current = false) ∧
    (∀ f ∈ db.files, f.certfp = h.certfp →
      { f with current := false } ∈ (Run drv archiveDayLimit deleteDayLimit db).db.files) ∧
    Stmt.updateFilesNotCurrent h.certfp ∈ (Run drv archiveDayLimit deleteDayLimit db).issued ∧
    Stmt.deleteFiles h.certfp ∉ (Run drv archiveDayLimit deleteDayLimit db).issued := by
  have hr := reached_ok drv db hs
  have hdel : isDel deleteDayLimit (query db) h.certfp = false :=
    isDel_false_of_unique db hu _ _ (List.prefix_refl _) h hm hd
  have harch : isArch archiveDayLimit deleteDayLimit (query db) h.certfp = true :=
    (isArch_iff _ _ _ _).mpr ⟨h.age, (mem_query db _ _).mpr ⟨h, hm, rfl, rfl⟩, hd, ha⟩
  have hfiles : (Run drv archiveDayLimit deleteDayLimit db).db.files.filter
        (fun f => decide (f.certfp = h.certfp)) =
      (db.files.filter (fun f => decide (f.certfp = h.certfp))).map
        (fun f => { f with current := false }) := by
    rw [Run_files_of drv _ _ db hq, hr, hdel, harch]
    simp only [Bool.false_eq_true, if_false, if_true]
    rfl
  refine ⟨?_, hfiles, ?_, ?_, ?_, ?_⟩
  · intro h' hm' hc
    rw [Run_hostinfo drv _ _ db hq, hr, List.mem_filter] at hm'
    rw [hc, harch] at hm'
    simp at hm'
  · intro f hf hc
    have hmem : f ∈ (Run drv archiveDayLimit deleteDayLimit db).db.files.filter
        (fun f => decide (f.certfp = h.certfp)) :=
      List.mem_filter.mpr ⟨hf, by simpa using hc⟩
    rw [hfiles] at hmem
    obtain ⟨g, _, hg⟩ := List.mem_map.mp hmem
    rw [← hg]
  · intro f hf hc
    have hmem : ({ f with current := false } : UploadedFile) ∈
        (db.files.filter (fun f => decide (f.certfp = h.certfp))).map
          (fun f => { f with current := false }) :=
      List.mem_map.mpr ⟨f, List.mem_filter.mpr ⟨hf, by simpa using hc⟩, rfl⟩
    rw [← hfiles] at hmem
    exact (List.mem_filter.mp hmem).1
  · rw [Run_issued drv _ _ db hq, hr, mem_stmts_update, harch]
  · rw [Run_issued drv _ _ db hq, hr, mem_stmts_deleteFiles, hdel]; simp

/-- C2 at the sample database with limits 30 and 90: host "bb" is 40 days old; its file was
current before the run and is kept with `current = false`. -/
theorem archive_keeps_files_not_current_witness :
    sampleDB.certfpUnique ∧ sampleHost "bb" (some 40) ∈ sampleDB.hostinfo ∧
    (30 : Int) ≤ (sampleHost "bb" (some 40)).days ∧ (sampleHost "bb" (some 40)).days < 90 ∧
    (sampleDB.files.filter (fun f => decide (f.certfp = "bb"))).map (fun f => f.current) =
      [true] ∧
    (∀ h' ∈ (Run Driver.ok 30 90 sampleDB).db.hostinfo, h'.certfp ≠ "bb") ∧
    (Run Driver.ok 30 90 sampleDB).db.files.filter (fun f => decide (f.certfp = "bb")) =
      [{ fileid := 2, certfp := "bb", filename := "/bin/uname -r",
         content := "4.15.13-300.fc27.x86_64", received := 0, current := false }] ∧
    (∀ f ∈ (Run Driver.ok 30 90 sampleDB).db.files, f.certfp = "bb" → f.current = false) :=
  have t := archive_keeps_files_not_current Driver.ok 30 90 sampleDB rfl (fun _ => rfl)
    (by decide) (sampleHost "bb" (some 40)) (by decide) (by decide) (by decide)
  ⟨by decide, by decide, by decide, by decide, by decide, t.1, t.2.1, t.2.2.1⟩

/-- The log of a run in which the query and every scan succeed. -/
theorem Run_log_ok (drv : Driver) (a d : Int) (db : DB) (hq : drv.queryErr = none)
    (hs : ∀ i, drv.scanErr i = none) :
    (Run drv a d db).log =
      if (Run drv a d db).acount > 0 ∨ (Run drv a d db).dcount > 0 then
        [.summary (Run drv a d db).acount (Run drv a d db).dcount]
      else [] := by
  rw [Run_eq drv a d db hq, firstScanErr_none drv.scanErr hs]
  simp only []
  have hl := fold_log a d (query db) (init db)
  split
  · rfl
  · rename_i h
    exact hl

/-- Counters and log of a run whose query and scans succeed. -/
theorem Run_summary (drv : Driver) (archiveDayLimit deleteDayLimit : Int)
    (db : DB) (hq : drv.queryErr = none) (hs : ∀ i, drv.scanErr i = none) :
    (Run drv archiveDayLimit deleteDayLimit db).dcount =
      ((db.hostinfo.filter (fun x => decide (x.days ≥ deleteDayLimit))).length : Int) ∧
    (Run drv archiveDayLimit deleteDayLimit db).acount =
      ((db.hostinfo.filter (fun x =>
        decide (x.days < deleteDayLimit) && decide (x.days ≥ archiveDayLimit))).length : Int) ∧
    ((Run drv archiveDayLimit deleteDayLimit db).acount > 0 ∨
        (Run drv archiveDayLimit deleteDayLimit db).dcount > 0 →
      (Run drv archiveDayLimit deleteDayLimit db).log =
        [.summary (Run drv archiveDayLimit deleteDayLimit db).acount
          (Run drv archiveDayLimit deleteDayLimit db).dcount]) ∧
    (¬ ((Run drv archiveDayLimit deleteDayLimit db).acount > 0 ∨
        (Run drv archiveDayLimit deleteDayLimit db).dcount > 0) →
      (Run drv archiveDayLimit deleteDayLimit db).log = []) ∧
    (db.certfpUnique →
      ((db.hostinfo.filter (fun x => decide (x.days ≥ deleteDayLimit))).length =
        ((db.hostinfo.filter (fun x => decide (x.days ≥ deleteDayLimit))).map
          (fun x => x.certfp)).toFinset.card) ∧
      ((db.hostinfo.filter (fun x =>
          decide (x.days < deleteDayLimit) && decide (x.days ≥ archiveDayLimit))).length =
        ((db.hostinfo.filter (fun x =>
          decide (x.days < deleteDayLimit) && decide (x.days ≥ archiveDayLimit))).map
            (fun x => x.certfp)).toFinset.card)) := by
  have hr := reached_ok drv db hs
  have hl := Run_log_ok drv archiveDayLimit deleteDayLimit db hq hs
  refine ⟨?_, ?_, ?_, ?_, ?_⟩
  · rw [Run_dcount drv _ _ db hq, hr]
    exact congrArg _ (query_filter_length db (fun n => decide (n ≥ deleteDayLimit)))
  · rw [Run_acount drv _ _ db hq, hr]
    exact congrArg _ (query_filter_length db
      (fun n => decide (n < deleteDayLimit) && decide (n ≥ archiveDayLimit)))
  · intro h; rw [hl, if_pos h]
  · intro h; rw [hl, if_neg h]
  · intro hu
    constructor
    · rw [List.toFinset_card_of_nodup, List.length_map]
      exact hu.sublist ((List.filter_sublist _).map _)
    · rw [List.toFinset_card_of_nodup, List.length_map]
      exact hu.sublist ((List.filter_sublist _).map _)

theorem rowsLoopNext_eq (nextErr : Nat → Bool) (hn : ∀ i, nextErr i = false)
    (scanErr : Nat → Option String) (a d : Int) :
    ∀ (rows : List (String × Option Int)) (i : Nat) (s : RunState),
      rowsLoopNext nextErr scanErr a d i rows s = rowsLoop scanErr a d i rows s
  | [], i, s => by simp [rowsLoopNext, rowsLoop]
  | (c, v) :: rest, i, s => by
    simp only [rowsLoopNext, rowsLoop, hn i, Bool.false_eq_true, if_false,
      rowsLoopNext_eq nextErr hn scanErr a d rest (i + 1)]

/-- When `rows.Next` never fails, `RunNext` is `Run`. -/
theorem RunNext_eq_Run (nextErr : Nat → Bool) (hn : ∀ i, nextErr i = false) (drv : Driver)
    (a d : Int) (db : DB) : RunNext nextErr drv a d db = Run drv a d db := by
  unfold removeInactiveMachinesJob.RunNext removeInactiveMachinesJob.Run
  simp only [rowsLoopNext_eq nextErr hn]

/-- The loop logs no summary. -/
theorem rowsLoopNext_summary (nextErr : Nat → Bool) (scanErr : Nat → Option String)
    (a d : Int) :
    ∀ (rows : List (String × Option Int)) (i : Nat) (s : RunState),
      (rowsLoopNext nextErr scanErr a d i rows s).2.log.filter LogEntry.isSummary =
        s.log.filter LogEntry.isSummary
  | [], i, s => by simp [rowsLoopNext]
  | (c, v) :: rest, i, s => by
    unfold rowsLoopNext
    by_cases hn : nextErr i = true
    · rw [if_pos hn]
    · rw [if_neg hn]
      cases hs : scanErr i with
      | some e => simp [List.filter_append, LogEntry.isSummary]
      | none =>
        simp only []
        split
        · rw [rowsLoopNext_summary nextErr scanErr a d rest (i + 1)]; rfl
        · split
          · rw [rowsLoopNext_summary nextErr scanErr a d rest (i + 1)]; rfl
          · rw [rowsLoopNext_summary nextErr scanErr a d rest (i + 1)]

/-- Whatever fails, a run that counted nothing logs no summary. -/
theorem RunNext_no_summary (nextErr : Nat → Bool) (drv : Driver) (a d : Int) (db : DB)
    (h : ¬ ((RunNext nextErr drv a d db).acount > 0 ∨ (RunNext nextErr drv a d db).dcount > 0)) :
    (RunNext nextErr drv a d db).log.filter LogEntry.isSummary = [] := by
  unfold removeInactiveMachinesJob.RunNext at h ⊢
  cases hq : drv.queryErr with
  | some e => simp [LogEntry.isSummary]
  | none =>
    rw [hq] at h
    simp only [] at h ⊢
    have hl := rowsLoopNext_summary nextErr drv.scanErr a d (query db) 0
      { db := db, acount := 0, dcount := 0, err := none, issued := [], log := [] }
    revert h hl
    cases rowsLoopNext nextErr drv.scanErr a d 0 (query db)
      { db := db, acount := 0, dcount := 0, err := none, issued := [], log := [] } with
    | mk b s =>
      intro h hl
      simp only [List.filter_nil] at hl
      cases b with
      | true => exact hl
      | false =>
        simp only [] at h ⊢
        cases he : s.err with
        | some e => simp [List.filter_append, hl, LogEntry.isSummary]
        | none =>
          rw [he] at h
          simp only [] at h ⊢
          by_cases hc : s.acount > 0 ∨ s.dcount > 0
          · rw [if_pos hc] at h
            exact absurd hc h
          · rw [if_neg hc]; exact hl

/-- C3, amended.  In a run in which the query, every `rows.Next` and every `rows.Scan`
succeed, `dcount` is the number of rows with `days ≥ deleteDayLimit` and `acount` the number
of rows with `archiveDayLimit ≤ days < deleteDayLimit` (with one row per fingerprint, the
number of such hosts); if one of them is positive the log is exactly one summary carrying
both counters, and otherwise the log is empty.  In every run, whatever fails, no summary is
logged when nothing was archived and nothing deleted. -/
theorem summary_iff_archived_or_deleted (nextErr : Nat → Bool) (drv : Driver)
    (archiveDayLimit deleteDayLimit : Int) (db : DB) :
    (drv.queryErr = none → (∀ i, nextErr i = false) → (∀ i, drv.scanErr i = none) →
      (RunNext nextErr drv archiveDayLimit deleteDayLimit db).dcount =
        ((db.hostinfo.filter (fun x => decide (x.days ≥ deleteDayLimit))).length : Int) ∧
      (RunNext nextErr drv archiveDayLimit deleteDayLimit db).acount =
        ((db.hostinfo.filter (fun x =>
          decide (x.days < deleteDayLimit) && decide (x.days ≥ archiveDayLimit))).length : Int) ∧
      ((RunNext nextErr drv archiveDayLimit deleteDayLimit db).acount > 0 ∨
          (RunNext nextErr drv archiveDayLimit deleteDayLimit db).dcount > 0 →
        (RunNext nextErr drv archiveDayLimit deleteDayLimit db).log =
          [.summary (RunNext nextErr drv archiveDayLimit deleteDayLimit db).acount
            (RunNext nextErr drv archiveDayLimit deleteDayLimit db).dcount]) ∧
      (¬ ((RunNext nextErr drv archiveDayLimit deleteDayLimit db).acount > 0 ∨
          (RunNext nextErr drv archiveDayLimit deleteDayLimit db).dcount > 0) →
        (RunNext nextErr drv archiveDayLimit deleteDayLimit db).log = []) ∧
      (db.certfpUnique →
        ((db.hostinfo.filter (fun x => decide (x.days ≥ deleteDayLimit))).length =
          ((db.hostinfo.filter (fun x => decide (x.days ≥ deleteDayLimit))).map
            (fun x => x.certfp)).toFinset.card) ∧
        ((db.hostinfo.filter (fun x =>
            decide (x.days < deleteDayLimit) && decide (x.days ≥ archiveDayLimit))).length =
          ((db.hostinfo.filter (fun x =>
            decide (x.days < deleteDayLimit) && decide (x.days ≥ archiveDayLimit))).map
              (fun x => x.certfp)).toFinset.card))) ∧
    (¬ ((RunNext nextErr drv archiveDayLimit deleteDayLimit db).acount > 0 ∨
        (RunNext nextErr drv archiveDayLimit deleteDayLimit db).dcount > 0) →
      (RunNext nextErr drv archiveDayLimit deleteDayLimit db).log.filter LogEntry.isSummary
        = []) := by
  refine ⟨?_, RunNext_no_summary nextErr drv archiveDayLimit deleteDayLimit db⟩
  intro hq hn hs
  rw [RunNext_eq_Run nextErr hn]
  exact Run_summary drv archiveDayLimit deleteDayLimit db hq hs

/-- C3, amended, at the sample database with limits 30 and 90: one host archived, one
deleted, one summary; and with limits 200 and 300 and the scan of the second row failing:
nothing archived, nothing deleted, no summary. -/
theorem summary_iff_archived_or_deleted_witness :
    (RunNext nextOk Driver.ok 30 90 sampleDB).dcount = 1 ∧
    (RunNext nextOk Driver.ok 30 90 sampleDB).acount = 1 ∧
    (RunNext nextOk Driver.ok 30 90 sampleDB).log = [.summary 1 1] ∧
    (RunNext nextOk scanFailsAtSecondRow 200 300 sampleDB).log.filter LogEntry.isSummary = [] :=
  have t := (summary_iff_archived_or_deleted nextOk Driver.ok 30 90 sampleDB).1 rfl
    (fun _ => rfl) (fun _ => rfl)
  ⟨by decide, by decide, by
    have h := t.2.2.1 (by decide)
    rw [h]; decide,
   (summary_iff_archived_or_deleted nextOk scanFailsAtSecondRow 200 300 sampleDB).2
    (by decide)⟩

/-- C3, as stated, fails when a scan or a `rows.Next` fails.  With host "aa" 100 days old,
limits 30 and 90, and the scan of the second row failing, the run deletes host "aa"
(`dcount = 1`), logs the scan error and returns without a summary.  With `rows.Next` failing
for the second row instead, the loop ends there: the summary says 0 archived and 1 deleted,
while host "bb", 40 days old, is the one host with `30 ≤ days < 90` and keeps its row. -/
theorem summary_missing_after_scan_error :
    (Run scanFailsAtSecondRow 30 90 sampleDB).dcount = 1 ∧
    (∀ h ∈ (Run scanFailsAtSecondRow 30 90 sampleDB).db.hostinfo, h.certfp ≠ "aa") ∧
    (Run scanFailsAtSecondRow 30 90 sampleDB).log = [.error "sql: Scan error"] ∧
    ¬ ((Run scanFailsAtSecondRow 30 90 sampleDB).acount > 0 ∨
        (Run scanFailsAtSecondRow 30 90 sampleDB).dcount > 0 →
      (Run scanFailsAtSecondRow 30 90 sampleDB).log.filter LogEntry.isSummary =
        [.summary (Run scanFailsAtSecondRow 30 90 sampleDB).acount
          (Run scanFailsAtSecondRow 30 90 sampleDB).dcount]) ∧
    (RunNext nextOk scanFailsAtSecondRow 30 90 sampleDB).log = [.error "sql: Scan error"] ∧
    (RunNext nextFailsAtSecondRow Driver.ok 30 90 sampleDB).log = [.summary 0 1] ∧
    sampleHost "bb" (some 40) ∈
      (RunNext nextFailsAtSecondRow Driver.ok 30 90 sampleDB).db.hostinfo ∧
    (sampleDB.hostinfo.filter (fun x => decide (x.days < 90) && decide (x.days ≥ 30))).length
      = 1 := by
  decide

/-- C7. If the query over `hostinfo` fails, `Run` returns with both tables as they were,
having issued no statement; the log holds the error and no summary, and both counters are
zero. -/
theorem query_failure_aborts (drv : Driver) (archiveDayLimit deleteDayLimit : Int) (db : DB)
    (e : String) (hq : drv.queryErr = some e) :
    (Run drv archiveDayLimit deleteDayLimit db).db = db ∧
    (Run drv archiveDayLimit deleteDayLimit db).issued = [] ∧
    (Run drv archiveDayLimit deleteDayLimit db).log = [.error e] ∧
    (Run drv archiveDayLimit deleteDayLimit db).log.filter LogEntry.isSummary = [] ∧
    (Run drv archiveDayLimit deleteDayLimit db).acount = 0 ∧
    (Run drv archiveDayLimit deleteDayLimit db).dcount = 0 := by
  rw [Run_queryErr drv _ _ db e hq]
  simp [LogEntry.isSummary]

/-- C8. Frame of `Run`, for every driver behaviour.  With one `hostinfo` row per
fingerprint, a row with `days < deleteDayLimit` and `days < archiveDayLimit` is still in
`hostinfo` after the run.  The `files` rows of a fingerprint for which neither the DELETE nor
the UPDATE on `files` was issued, and those of a fingerprint without `hostinfo` row, are the
same before and after.  No row is inserted: `hostinfo` after the run is a sublist of
`hostinfo` before, and so is `files`, up to the flag `current`. -/
theorem frame_of_run (drv : Driver) (archiveDayLimit deleteDayLimit : Int) (db : DB) :
    (db.certfpUnique → ∀ h ∈ db.hostinfo, h.days < deleteDayLimit → h.days < archiveDayLimit →
      h ∈ (Run drv archiveDayLimit deleteDayLimit db).db.hostinfo) ∧
    (∀ c : String,
      Stmt.deleteFiles c ∉ (Run drv archiveDayLimit deleteDayLimit db).issued →
      Stmt.updateFilesNotCurrent c ∉ (Run drv archiveDayLimit deleteDayLimit db).issued →
      (Run drv archiveDayLimit deleteDayLimit db).db.files.filter
          (fun f => decide (f.certfp = c)) =
        db.files.filter (fun f => decide (f.certfp = c))) ∧
    (∀ c : String, (∀ h ∈ db.hostinfo, h.certfp ≠ c) →
      (Run drv archiveDayLimit deleteDayLimit db).db.files.filter
          (fun f => decide (f.certfp = c)) =
        db.files.filter (fun f => decide (f.certfp = c))) ∧
    (Run drv archiveDayLimit deleteDayLimit db).db.hostinfo.Sublist db.hostinfo ∧
    ((Run drv archiveDayLimit deleteDayLimit db).db.files.map UploadedFile.notCurrent).Sublist
      (db.files.map UploadedFile.notCurrent) := by
  cases hq : drv.queryErr with
  | some e =>
    rw [Run_queryErr drv _ _ db e hq]
    refine ⟨?_, ?_, ?_, ?_, ?_⟩
    · intro _ h hm _ _; exact hm
    · intro c _ _; rfl
    · intro c _; rfl
    · exact List.Sublist.refl _
    · exact List.Sublist.refl _
  | none =>
    have hP := reached_prefix drv db
    refine ⟨?_, ?_, ?_, ?_, ?_⟩
    · intro hu h hm hd ha
      rw [Run_hostinfo drv _ _ db hq, List.mem_filter]
      refine ⟨hm, ?_⟩
      rw [isDel_false_of_unique db hu _ _ hP h hm hd,
        isArch_false_of_unique db hu _ _ _ hP h hm (Or.inl ha)]
      rfl
    · intro c h1 h2
      rw [Run_issued drv _ _ db hq, mem_stmts_deleteFiles] at h1
      rw [Run_issued drv _ _ db hq, mem_stmts_update] at h2
      rw [Run_files_of drv _ _ db hq, if_neg h1, if_neg h2]
    · intro c hc
      have h1 : ¬ isDel deleteDayLimit (reached drv db) c = true := by
        intro hx
        obtain ⟨v, hv, _⟩ := (isDel_iff _ _ _).mp hx
        obtain ⟨h, hm, hcc, _⟩ := (mem_query db _ _).mp (hP.subset hv)
        exact hc h hm hcc
      have h2 : ¬ isArch archiveDayLimit deleteDayLimit (reached drv db) c = true := by
        intro hx
        obtain ⟨v, hv, _⟩ := (isArch_iff _ _ _ _).mp hx
        obtain ⟨h, hm, hcc, _⟩ := (mem_query db _ _).mp (hP.subset hv)
        exact hc h hm hcc
      rw [Run_files_of drv _ _ db hq, if_neg h1, if_neg h2]
    · rw [Run_hostinfo drv _ _ db hq]; exact List.filter_sublist _
    · rw [Run_files drv _ _ db hq, List.map_map]
      have : (UploadedFile.notCurrent ∘ fun f : UploadedFile =>
          if isArch archiveDayLimit deleteDayLimit (reached drv db) f.certfp = true
            then f.notCurrent else f) = UploadedFile.notCurrent := by
        funext f
        simp only [Function.comp]
        split
        · exact notCurrent_idem f
        · rfl
      rw [this]
      exact (List.filter_sublist _).map _

/-- C8 at the sample database with limits 30 and 90: host "cc", 5 days old, is kept. -/
theorem frame_of_run_witness :
    sampleDB.certfpUnique ∧ sampleHost "cc" (some 5) ∈ sampleDB.hostinfo ∧
    (sampleHost "cc" (some 5)).days < 90 ∧ (sampleHost "cc" (some 5)).days < 30 ∧
    sampleHost "cc" (some 5) ∈ (Run Driver.ok 30 90 sampleDB).db.hostinfo :=
  ⟨by decide, by decide, by decide, by decide,
    (frame_of_run Driver.ok 30 90 sampleDB).1 (by decide) (sampleHost "cc" (some 5))
      (by decide) (by decide) (by decide)⟩

/-- After a run without errors every remaining host is below both limits. -/
theorem remaining_below_limits (drv : Driver) (a d : Int) (db : DB)
    (hq : drv.queryErr = none) (hs : ∀ i, drv.scanErr i = none) :
    ∀ h ∈ (Run drv a d db).db.hostinfo, h.days < d ∧ h.days < a := by
  intro h hm
  rw [Run_hostinfo drv _ _ db hq, reached_ok drv db hs, List.mem_filter] at hm
  obtain ⟨hm, hp⟩ := hm
  simp only [Bool.and_eq_true, Bool.not_eq_true'] at hp
  have hrow : (h.certfp, h.age) ∈ query db := (mem_query db _ _).mpr ⟨h, hm, rfl, rfl⟩
  have h1 : h.days < d := by
    by_contra hc
    have := (isDel_iff d (query db) h.certfp).mpr ⟨h.age, hrow, not_lt.mp hc⟩
    rw [hp.1] at this; exact Bool.noConfusion this
  refine ⟨h1, ?_⟩
  by_contra hc
  have := (isArch_iff a d (query db) h.certfp).mpr ⟨h.age, hrow, h1, not_lt.mp hc⟩
  rw [hp.2] at this; exact Bool.noConfusion this

/-- A summary is logged only when one of the counters is positive. -/
theorem summary_only_if_counted (drv : Driver) (a d : Int) (db : DB) :
    ∀ e ∈ (Run drv a d db).log, e.isSummary = true →
      (Run drv a d db).acount > 0 ∨ (Run drv a d db).dcount > 0 := by
  cases hq : drv.queryErr with
  | some e =>
    rw [Run_queryErr drv _ _ db e hq]
    intro x hx hs
    simp at hx
    subst hx
    simp [LogEntry.isSummary] at hs
  | none =>
    rw [Run_eq drv a d db hq]
    cases firstScanErr drv.scanErr 0 (query db) with
    | none =>
      simp only []
      split
      · rename_i h
        intro _ _ _
        exact h
      · intro x hx hs
        rw [fold_log] at hx
        simp [init] at hx
    | some p =>
      intro x hx hs
      simp at hx
      subst hx
      simp [LogEntry.isSummary] at hs

/-- A run over hosts that are all below both limits does nothing. -/
theorem Run_noop (drv : Driver) (a d : Int) (db : DB)
    (hb : ∀ h ∈ db.hostinfo, h.days < d ∧ h.days < a) :
    (Run drv a d db).db = db ∧ (Run drv a d db).acount = 0 ∧ (Run drv a d db).dcount = 0 ∧
      (Run drv a d db).issued = [] ∧
      (Run drv a d db).log.filter LogEntry.isSummary = [] := by
  cases hq : drv.queryErr with
  | some e =>
    rw [Run_queryErr drv _ _ db e hq]
    simp [LogEntry.isSummary]
  | none =>
    have hP := reached_prefix drv db
    have hrow : ∀ r ∈ reached drv db, daysOf r.2 < d ∧ daysOf r.2 < a := by
      intro r hr
      obtain ⟨h, hm, _, hage⟩ := (mem_query db r.1 r.2).mp (hP.subset hr)
      have := hb h hm
      simpa [HostInfo.days, hage] using this
    have hdel : ∀ c, isDel d (reached drv db) c = false := by
      intro c
      rw [Bool.eq_false_iff]
      intro hx
      obtain ⟨v, hv, hvd⟩ := (isDel_iff _ _ _).mp hx
      exact absurd hvd (not_le.mpr (hrow _ hv).1)
    have harch : ∀ c, isArch a d (reached drv db) c = false := by
      intro c
      rw [Bool.eq_false_iff]
      intro hx
      obtain ⟨v, hv, _, hva⟩ := (isArch_iff _ _ _ _).mp hx
      exact absurd hva (not_le.mpr (hrow _ hv).2)
    have hd0 : (Run drv a d db).dcount = 0 := by
      rw [Run_dcount drv _ _ db hq]
      have : (reached drv db).filter (fun r => decide (daysOf r.2 ≥ d)) = [] := by
        rw [List.filter_eq_nil_iff]
        intro r hr
        simpa using (hrow r hr).1
      rw [this]; rfl
    have ha0 : (Run drv a d db).acount = 0 := by
      rw [Run_acount drv _ _ db hq]
      have : (reached drv db).filter
          (fun r => decide (daysOf r.2 < d) && decide (daysOf r.2 ≥ a)) = [] := by
        rw [List.filter_eq_nil_iff]
        intro r hr
        have := (hrow r hr).2
        simp [this]
      rw [this]; rfl
    refine ⟨?_, ha0, hd0, ?_, ?_⟩
    · have e1 := Run_hostinfo drv a d db hq
      have e2 := Run_files drv a d db hq
      simp only [hdel, harch] at e1 e2
      simp at e1 e2
      cases hdb : (Run drv a d db).db with
      | mk hi fi =>
        rw [hdb] at e1 e2
        simp only at e1 e2
        cases db
        simp_all
    · rw [Run_issued drv a d db hq]
      rw [List.flatMap_eq_nil_iff]
      intro r hr
      have := hrow r hr
      unfold stmtsOf
      rw [if_neg (not_le.mpr this.1), if_neg (not_le.mpr this.2)]
    · rw [List.filter_eq_nil_iff]
      intro e he hsum
      have := summary_only_if_counted drv a d db e he hsum
      rw [ha0, hd0] at this
      simp at this

/-- C9. Idempotence at fixed host ages.  After a run whose query and scans succeed, every
remaining `hostinfo` row has `days < deleteDayLimit` and `days < archiveDayLimit`; a second
run with the same limits, whatever the driver does, leaves both tables as the first run left
them, issues no statement, counts nothing and logs no summary. -/
theorem second_run_does_nothing (drv1 drv2 : Driver) (archiveDayLimit deleteDayLimit : Int)
    (db : DB) (hq : drv1.queryErr = none) (hs : ∀ i, drv1.scanErr i = none) :
    (∀ h ∈ (Run drv1 archiveDayLimit deleteDayLimit db).db.hostinfo,
      h.days < deleteDayLimit ∧ h.days < archiveDayLimit) ∧
    (Run drv2 archiveDayLimit deleteDayLimit
        (Run drv1 archiveDayLimit deleteDayLimit db).db).db =
      (Run drv1 archiveDayLimit deleteDayLimit db).db ∧
    (Run drv2 archiveDayLimit deleteDayLimit
        (Run drv1 archiveDayLimit deleteDayLimit db).db).acount = 0 ∧
    (Run drv2 archiveDayLimit deleteDayLimit
        (Run drv1 archiveDayLimit deleteDayLimit db).db).dcount = 0 ∧
    (Run drv2 archiveDayLimit deleteDayLimit
        (Run drv1 archiveDayLimit deleteDayLimit db).db).issued = [] ∧
    (Run drv2 archiveDayLimit deleteDayLimit
        (Run drv1 archiveDayLimit deleteDayLimit db).db).log.filter LogEntry.isSummary = [] :=
  have hb := remaining_below_limits drv1 archiveDayLimit deleteDayLimit db hq hs
  ⟨hb, Run_noop drv2 archiveDayLimit deleteDayLimit _ hb⟩

/-- C9 at the sample database with limits 30 and 90. -/
theorem second_run_does_nothing_witness :
    (Run Driver.ok 30 90 (Run Driver.ok 30 90 sampleDB).db).db =
      (Run Driver.ok 30 90 sampleDB).db ∧
    (Run Driver.ok 30 90 (Run Driver.ok 30 90 sampleDB).db).log.filter LogEntry.isSummary = [] :=
  have t := second_run_does_nothing Driver.ok Driver.ok 30 90 sampleDB rfl (fun _ => rfl)
  ⟨t.2.1, t.2.2.2.2.2⟩

/-- C7 at the sample database, with a driver whose query fails. -/
theorem query_failure_aborts_witness :
    queryFails.queryErr = some "connection refused" ∧
    (Run queryFails 30 90 sampleDB).db = sampleDB ∧
    (Run queryFails 30 90 sampleDB).issued = [] ∧
    (Run queryFails 30 90 sampleDB).log =
      [.error "connection refused"] :=
  have t := query_failure_aborts queryFails 30 90 sampleDB "connection refused" rfl
  ⟨rfl, t.1, t.2.1, t.2.2.1⟩

theorem firstScanErr_mem {α : Type} (scanErr : Nat → Option String) :
    ∀ (rows : List α) (k i : Nat) (r : α), rows[i]? = some r →
      (∀ j, j ≤ i → scanErr (k + j) = none) →
      ∀ P e, firstScanErr scanErr k rows = some (P, e) → r ∈ P
  | [], _, i, r, hi, _, _, _, _ => by simp at hi
  | x :: rest, k, i, r, hi, hs, P, e, hf => by
    have h0 : scanErr k = none := by simpa using hs 0 (Nat.zero_le _)
    simp only [firstScanErr, h0] at hf
    cases hr : firstScanErr scanErr (k + 1) rest with
    | none => simp [hr] at hf
    | some p =>
      obtain ⟨P', e'⟩ := p
      simp [hr] at hf
      rw [← hf.1]
      cases i with
      | zero =>
        simp at hi
        subst hi
        exact List.mem_cons_self _ _
      | succ i =>
        have hi2 : rest[i]? = some r := by simpa using hi
        exact List.mem_cons_of_mem _ (firstScanErr_mem scanErr rest (k + 1) i r hi2
          (fun j hj => by
            have := hs (j + 1) (Nat.succ_le_succ hj)
            rw [← this]; congr 1; omega) P' e' hr)

/-- A row whose scan and all earlier scans succeed is reached by the loop. -/
theorem mem_reached (drv : Driver) (db : DB) (i : Nat) (h : HostInfo)
    (hi : db.hostinfo[i]? = some h) (hs : ∀ j, j ≤ i → drv.scanErr j = none) :
    (h.certfp, h.age) ∈ reached drv db := by
  have hq : (query db)[i]? = some (h.certfp, h.age) := by simp [query, hi]
  unfold reached
  cases hf : firstScanErr drv.scanErr 0 (query db) with
  | none => exact List.getElem?_mem hq
  | some p =>
    exact firstScanErr_mem drv.scanErr (query db) 0 i _ hq
      (fun j hj => by simpa using hs j hj) p.1 p.2 hf

/-- C10. A host whose `lastseen` is NULL is treated as 0 days old.  In a run whose query
succeeds and in which the scans up to and including that of the host's row succeed, with one
`hostinfo` row per fingerprint: the host is deleted (DELETE on `files` issued) iff
`deleteDayLimit ≤ 0`; it is archived (UPDATE on `files` issued) iff `0 < deleteDayLimit` and
`archiveDayLimit ≤ 0`; its row is kept iff both limits are positive, and then its `files`
rows are unchanged. -/
theorem null_lastseen_is_age_zero (drv : Driver) (archiveDayLimit deleteDayLimit : Int)
    (db : DB) (hq : drv.queryErr = none) (hu : db.certfpUnique)
    (i : Nat) (h : HostInfo) (hi : db.hostinfo[i]? = some h)
    (hs : ∀ j, j ≤ i → drv.scanErr j = none) (hn : h.age = none) :
    h.days = 0 ∧
    (Stmt.deleteFiles h.certfp ∈ (Run drv archiveDayLimit deleteDayLimit db).issued ↔
      deleteDayLimit ≤ 0) ∧
    (Stmt.updateFilesNotCurrent h.certfp ∈ (Run drv archiveDayLimit deleteDayLimit db).issued ↔
      0 < deleteDayLimit ∧ archiveDayLimit ≤ 0) ∧
    (h ∈ (Run drv archiveDayLimit deleteDayLimit db).db.hostinfo ↔
      0 < deleteDayLimit ∧ 0 < archiveDayLimit) ∧
    (0 < deleteDayLimit → 0 < archiveDayLimit →
      (Run drv archiveDayLimit deleteDayLimit db).db.files.filter
          (fun f => decide (f.certfp = h.certfp)) =
        db.files.filter (fun f => decide (f.certfp = h.certfp))) := by
  have hm : h ∈ db.hostinfo := List.getElem?_mem hi
  have hP := reached_prefix drv db
  have h0 : h.days = 0 := by simp [HostInfo.days, daysOf, scanNullInt64, hn]
  have hrow : (h.certfp, h.age) ∈ reached drv db := mem_reached drv db i h hi hs
  have hdel : isDel deleteDayLimit (reached drv db) h.certfp = true ↔ deleteDayLimit ≤ 0 := by
    rw [isDel_iff]
    constructor
    · rintro ⟨v, hv, hd⟩
      have := age_of_unique db hu h hm v (hP.subset hv)
      subst this
      change h.days ≥ deleteDayLimit at hd
      rw [h0] at hd; exact hd
    · intro hd
      refine ⟨h.age, hrow, ?_⟩
      change h.days ≥ deleteDayLimit
      rw [h0]; exact hd
  have harch : isArch archiveDayLimit deleteDayLimit (reached drv db) h.certfp = true ↔
      0 < deleteDayLimit ∧ archiveDayLimit ≤ 0 := by
    rw [isArch_iff]
    constructor
    · rintro ⟨v, hv, hd, ha⟩
      have := age_of_unique db hu h hm v (hP.subset hv)
      subst this
      change h.days < deleteDayLimit at hd
      change h.days ≥ archiveDayLimit at ha
      rw [h0] at hd ha; exact ⟨hd, ha⟩
    · rintro ⟨hd, ha⟩
      refine ⟨h.age, hrow, ?_, ?_⟩
      · change h.days < deleteDayLimit
        rw [h0]; exact hd
      · change h.days ≥ archiveDayLimit
        rw [h0]; exact ha
  refine ⟨h0, ?_, ?_, ?_, ?_⟩
  · rw [Run_issued drv _ _ db hq, mem_stmts_deleteFiles, hdel]
  · rw [Run_issued drv _ _ db hq, mem_stmts_update, harch]
  · rw [Run_hostinfo drv _ _ db hq, List.mem_filter]
    simp only [Bool.and_eq_true, Bool.not_eq_true', hm, true_and]
    rw [Bool.eq_false_iff, Bool.eq_false_iff, Ne, Ne, hdel, harch]
    constructor
    · rintro ⟨h1, h2⟩
      have hd : 0 < deleteDayLimit := not_le.mp h1
      exact ⟨hd, not_le.mp (fun ha => h2 ⟨hd, ha⟩)⟩
    · rintro ⟨h1, h2⟩
      exact ⟨not_le.mpr h1, fun hx => absurd hx.2 (not_le.mpr h2)⟩
  · intro hd ha
    have h1 : ¬ isDel deleteDayLimit (reached drv db) h.certfp = true :=
      fun hx => absurd (hdel.mp hx) (not_le.mpr hd)
    have h2 : ¬ isArch archiveDayLimit deleteDayLimit (reached drv db) h.certfp = true :=
      fun hx => absurd (harch.mp hx).2 (not_le.mpr ha)
    rw [Run_files_of drv _ _ db hq, if_neg h1, if_neg h2]

/-- C10 at the sample database with limits 30 and 90: host "dd" was never seen and is kept. -/
theorem null_lastseen_is_age_zero_witness :
    sampleDB.certfpUnique ∧ sampleDB.hostinfo[3]? = some (sampleHost "dd" none) ∧
    (sampleHost "dd" none).age = none ∧
    (sampleHost "dd" none).days = 0 ∧
    (sampleHost "dd" none ∈ (Run Driver.ok 30 90 sampleDB).db.hostinfo ↔
      (0 : Int) < 90 ∧ (0 : Int) < 30) :=
  have t := null_lastseen_is_age_zero Driver.ok 30 90 sampleDB rfl (by decide) 3
    (sampleHost "dd" none) rfl (fun _ _ => rfl) rfl
  ⟨by decide, rfl, rfl, t.1, t.2.2.2.1⟩

/-! ## Lemmas about the parsers -/

theorem get_set_same (h : HostInfo) (fld : Field) (v : Option String) :
    (h.set fld v).get fld = v := by
  cases fld <;> rfl

theorem get_set_other (h : HostInfo) (fld fld' : Field) (v : Option String) (hne : fld' ≠ fld) :
    (h.set fld' v).get fld = h.get fld := by
  cases fld <;> cases fld' <;> first | rfl | exact absurd rfl hne

theorem set_certfp (h : HostInfo) (fld : Field) (v : Option String) :
    (h.set fld v).certfp = h.certfp := by
  cases fld <;> rfl

theorem upsert_files (db : DB) (c : String) (fld : Field) (v : String) :
    (upsert db c fld v).files = db.files := by
  unfold upsert; split <;> rfl

theorem clearOS_files (db : DB) (c : String) : (clearOS db c).files = db.files := rfl

theorem fieldIs_upsert_same (db : DB) (c : String) (fld : Field) (v : String) :
    fieldIs (upsert db c fld v) c fld v := by
  unfold upsert
  split
  · rename_i hex
    obtain ⟨h0, hm0, hc0⟩ := List.any_eq_true.mp hex
    have hc0 : h0.certfp = c := by simpa using hc0
    constructor
    · exact ⟨h0.set fld (some v), List.mem_map.mpr ⟨h0, hm0, by simp [hc0]⟩,
        by rw [set_certfp]; exact hc0⟩
    · intro h hm hc
      obtain ⟨g, _, hg⟩ := List.mem_map.mp hm
      by_cases hgc : g.certfp = c
      · rw [if_pos hgc] at hg; rw [← hg, get_set_same]
      · rw [if_neg hgc] at hg; rw [← hg] at hc; exact absurd hc hgc
  · rename_i hex
    have hno : ∀ h ∈ db.hostinfo, h.certfp ≠ c := by
      intro h hm hc
      exact hex (List.any_eq_true.mpr ⟨h, hm, by simpa using hc⟩)
    constructor
    · exact ⟨(HostInfo.blank c).set fld (some v), by simp, by rw [set_certfp]; rfl⟩
    · intro h hm hc
      simp only [List.mem_append, List.mem_singleton] at hm
      rcases hm with hm | hm
      · exact absurd hc (hno h hm)
      · rw [hm, get_set_same]

theorem fieldIs_upsert_other (db : DB) (c c' : String) (fld fld' : Field) (v v' : String)
    (hd : c' ≠ c ∨ fld' ≠ fld) (hf : fieldIs db c fld v) :
    fieldIs (upsert db c' fld' v') c fld v := by
  obtain ⟨⟨h0, hm0, hc0⟩, hall⟩ := hf
  unfold upsert
  split
  · constructor
    · by_cases hcc : c' = c
      · refine ⟨h0.set fld' (some v'), List.mem_map.mpr ⟨h0, hm0, ?_⟩, ?_⟩
        · rw [if_pos (hc0.trans hcc.symm)]
        · rw [set_certfp]; exact hc0
      · refine ⟨h0, List.mem_map.mpr ⟨h0, hm0, ?_⟩, hc0⟩
        rw [if_neg (fun e => hcc (e.symm.trans hc0))]
    · intro h hm hc
      obtain ⟨g, hgm, hg⟩ := List.mem_map.mp hm
      by_cases hgc : g.certfp = c'
      · rw [if_pos hgc] at hg
        have hgc2 : g.certfp = c := by rw [← hc, ← hg, set_certfp]
        have hfl : fld' ≠ fld := by
          rcases hd with hd | hd
          · exact absurd (hgc.symm.trans hgc2) hd
          · exact hd
        rw [← hg, get_set_other _ _ _ _ hfl]
        exact hall g hgm hgc2
      · rw [if_neg hgc] at hg
        rw [← hg]; rw [← hg] at hc
        exact hall g hgm hc
  · rename_i hex
    have hcc : c' ≠ c := by
      intro e
      exact hex (List.any_eq_true.mpr ⟨h0, hm0, by simpa [e] using hc0⟩)
    constructor
    · exact ⟨h0, by simp [hm0], hc0⟩
    · intro h hm hc
      simp only [List.mem_append, List.mem_singleton] at hm
      rcases hm with hm | hm
      · exact hall h hm hc
      · rw [hm, set_certfp] at hc
        exact absurd hc hcc

theorem fieldIs_clearOS (db : DB) (c c' : String) (fld : Field) (v : String)
    (hd : c' ≠ c ∨ (fld ≠ .os ∧ fld ≠ .os_edition)) (hf : fieldIs db c fld v) :
    fieldIs (clearOS db c') c fld v := by
  obtain ⟨⟨h0, hm0, hc0⟩, hall⟩ := hf
  unfold clearOS
  constructor
  · by_cases hcc : c' = c
    · refine ⟨(h0.set .os none).set .os_edition none, List.mem_map.mpr ⟨h0, hm0, ?_⟩, ?_⟩
      · rw [if_pos (hc0.trans hcc.symm)]
      · rw [set_certfp, set_certfp]; exact hc0
    · refine ⟨h0, List.mem_map.mpr ⟨h0, hm0, ?_⟩, hc0⟩
      rw [if_neg (fun e => hcc (e.symm.trans hc0))]
  · intro h hm hc
    obtain ⟨g, hgm, hg⟩ := List.mem_map.mp hm
    by_cases hgc : g.certfp = c'
    · rw [if_pos hgc] at hg
      have hgc2 : g.certfp = c := by rw [← hc, ← hg, set_certfp, set_certfp]
      have hfl : fld ≠ .os ∧ fld ≠ .os_edition := by
        rcases hd with hd | hd
        · exact absurd (hgc.symm.trans hgc2) hd
        · exact hd
      rw [← hg, get_set_other _ _ _ _ (Ne.symm hfl.2), get_set_other _ _ _ _ (Ne.symm hfl.1)]
      exact hall g hgm hgc2
    · rw [if_neg hgc] at hg
      rw [← hg]; rw [← hg] at hc
      exact hall g hgm hc

theorem foldl_upsert_files (c : String) :
    ∀ (ps : List (Field × String)) (db : DB),
      (ps.foldl (fun acc p => upsert acc c p.1 p.2) db).files = db.files
  | [], db => rfl
  | p :: ps, db => by
    rw [List.foldl_cons, foldl_upsert_files c ps, upsert_files]

theorem fieldIs_foldl_other (c c' : String) (fld : Field) (v : String) :
    ∀ (ps : List (Field × String)) (db : DB),
      (c' ≠ c ∨ ∀ p ∈ ps, p.1 ≠ fld) → fieldIs db c fld v →
      fieldIs (ps.foldl (fun acc p => upsert acc c' p.1 p.2) db) c fld v
  | [], db, _, hf => hf
  | p :: ps, db, hd, hf => by
    rw [List.foldl_cons]
    apply fieldIs_foldl_other c c' fld v ps
    · rcases hd with hd | hd
      · exact Or.inl hd
      · exact Or.inr (fun q hq => hd q (List.mem_cons_of_mem _ hq))
    · apply fieldIs_upsert_other _ _ _ _ _ _ _ _ hf
      rcases hd with hd | hd
      · exact Or.inl hd
      · exact Or.inr (hd p (List.mem_cons_self _ _))

theorem fieldIs_foldl_same (c : String) (fld : Field) (v : String) :
    ∀ (ps : List (Field × String)) (db : DB),
      (∀ p ∈ ps, p.1 = fld → p.2 = v) →
      (fieldIs db c fld v ∨ ∃ p ∈ ps, p.1 = fld) →
      fieldIs (ps.foldl (fun acc p => upsert acc c p.1 p.2) db) c fld v
  | [], db, _, hf => by
    rcases hf with hf | ⟨p, hp, _⟩
    · exact hf
    · simp at hp
  | p :: ps, db, hv, hf => by
    rw [List.foldl_cons]
    apply fieldIs_foldl_same c fld v ps
    · exact fun q hq => hv q (List.mem_cons_of_mem _ hq)
    · by_cases hp : p.1 = fld
      · left
        have := hv p (List.mem_cons_self _ _) hp
        rw [hp, this]
        exact fieldIs_upsert_same db c fld v
      · rcases hf with hf | ⟨q, hq, hqf⟩
        · left
          exact fieldIs_upsert_other _ _ _ _ _ _ _ (Or.inr hp) hf
        · right
          rcases List.mem_cons.mp hq with e | hq
          · rw [e] at hqf; exact absurd hqf hp
          · exact ⟨q, hq, hqf⟩

theorem parseKernel_field (content : List Char) :
    ∀ p ∈ parseKernel content, p.1 = Field.kernel := by
  intro p hp
  unfold parseKernel at hp
  split at hp
  · simp at hp
  · simp at hp; rw [hp]

theorem lineFields_field (line : List Char) :
    ∀ p ∈ lineFields line, fieldKind p.1 = .hardware := by
  intro p hp
  unfold lineFields at hp
  split at hp
  · rename_i k v _
    unfold hardwareField at hp
    split at hp
    · split at hp
      · simp at hp
      · rename_i fld hfld _
        simp at hp
        rw [hp]
        split at hfld
        · cases hfld; rfl
        · split at hfld
          · cases hfld; rfl
          · split at hfld
            · cases hfld; rfl
            · cases hfld
    · simp at hp
  · simp at hp

theorem parseHardwareLines_field :
    ∀ (lines : List (List Char)) (header : List Char),
      ∀ p ∈ parseHardwareLines header lines, fieldKind p.1 = .hardware
  | [], header, p, hp => by simp [parseHardwareLines] at hp
  | line :: rest, header, p, hp => by
    unfold parseHardwareLines at hp
    split at hp
    · split at hp
      · rcases List.mem_append.mp hp with h | h
        · exact lineFields_field line p h
        · exact parseHardwareLines_field rest header p h
      · exact parseHardwareLines_field rest header p hp
    · exact parseHardwareLines_field rest _ p hp

theorem parseOSRelease_field (content : List Char) :
    ∀ p ∈ parseOSRelease content, fieldKind p.1 = .osRelease := by
  intro p hp
  unfold parseOSRelease at hp
  split at hp
  · simp at hp
  · rename_i family edition _
    cases edition with
    | none => simp at hp; rw [hp]; rfl
    | some e =>
      simp at hp
      rcases hp with hp | hp <;> (rw [hp]; rfl)

/-- A parser only produces its own columns. -/
theorem parse_field (label content : String) :
    ∀ p ∈ parse label content, dispatch label = some (fieldKind p.1) := by
  intro p hp
  unfold parse at hp
  split at hp
  · rename_i hk
    rw [hk, parseKernel_field _ p hp]; rfl
  · rename_i hk
    rw [hk, parseHardwareLines_field _ _ p hp]
  · rename_i hk
    rw [hk, parseOSRelease_field _ p hp]
  · simp at hp

theorem parseFile_files (db : DB) (fileID : Int) : (parseFile db fileID).files = db.files := by
  unfold parseFile
  split
  · rfl
  · rw [foldl_upsert_files]
    split <;> rfl

theorem fieldIs_parseFile_other (db : DB) (fileID : Int) (c : String) (fld : Field) (v : String)
    (hg : ∀ g, db.files.find? (fun f => decide (f.fileid = fileID)) = some g →
      g.certfp ≠ c ∨ dispatch g.filename ≠ some (fieldKind fld))
    (hf : fieldIs db c fld v) : fieldIs (parseFile db fileID) c fld v := by
  unfold parseFile
  split
  · exact hf
  · rename_i g hfind
    have hd := hg g hfind
    apply fieldIs_foldl_other
    · rcases hd with hd | hd
      · exact Or.inl hd
      · right
        intro p hp e
        exact hd (by rw [parse_field _ _ p hp, e])
    · split
      · rename_i hos
        apply fieldIs_clearOS _ _ _ _ _ _ hf
        rcases hd with hd | hd
        · exact Or.inl hd
        · right
          rw [hos] at hd
          constructor <;> (intro e; rw [e] at hd; exact hd rfl)
      · exact hf

theorem fieldIs_parseFile_same (db : DB) (fileID : Int) (f : UploadedFile) (fld : Field)
    (v : String)
    (hfind : db.files.find? (fun f => decide (f.fileid = fileID)) = some f)
    (hv : ∀ p ∈ parse f.filename f.content, p.1 = fld → p.2 = v)
    (hex : ∃ p ∈ parse f.filename f.content, p.1 = fld) :
    fieldIs (parseFile db fileID) f.certfp fld v := by
  unfold parseFile
  rw [hfind]
  exact fieldIs_foldl_same _ _ _ _ _ hv (Or.inr hex)

theorem foldl_parseFile_files :
    ∀ (ids : List Int) (db : DB), (ids.foldl parseFile db).files = db.files
  | [], db => rfl
  | i :: ids, db => by rw [List.foldl_cons, foldl_parseFile_files ids, parseFile_files]

theorem fieldIs_foldl_parseFile (c : String) (fld : Field) (v : String) (files : List UploadedFile) :
    ∀ (ids : List Int) (db : DB), db.files = files →
      (∀ i ∈ ids, ∀ g, files.find? (fun f => decide (f.fileid = i)) = some g →
        g.certfp ≠ c ∨ dispatch g.filename ≠ some (fieldKind fld)) →
      fieldIs db c fld v → fieldIs (ids.foldl parseFile db) c fld v
  | [], db, _, _, hf => hf
  | i :: ids, db, hfiles, hg, hf => by
    rw [List.foldl_cons]
    apply fieldIs_foldl_parseFile c fld v files ids
    · rw [parseFile_files, hfiles]
    · exact fun j hj => hg j (List.mem_cons_of_mem _ hj)
    · apply fieldIs_parseFile_other _ _ _ _ _ _ hf
      rw [hfiles]
      exact hg i (List.mem_cons_self _ _)

theorem parseHardwareLines_outside :
    ∀ (lines : List (List Char)) (header : List Char), header ≠ systemInformation →
      (∀ l ∈ lines, isIndented l = false → trimSpace l ≠ systemInformation) →
      parseHardwareLines header lines = []
  | [], _, _, _ => rfl
  | line :: rest, header, hh, hl => by
    unfold parseHardwareLines
    cases hi : isIndented line with
    | true =>
      simp only [if_true, if_neg hh]
      exact parseHardwareLines_outside rest header hh
        (fun l hm => hl l (List.mem_cons_of_mem _ hm))
    | false =>
      simp only [Bool.false_eq_true, if_false]
      exact parseHardwareLines_outside rest _ (hl line (List.mem_cons_self _ _) hi)
        (fun l hm => hl l (List.mem_cons_of_mem _ hm))

theorem parseHardwareLines_before :
    ∀ (before : List (List Char)) (header : List Char) (rest : List (List Char)),
      header ≠ systemInformation →
      (∀ l ∈ before, isIndented l = false → trimSpace l ≠ systemInformation) →
      parseHardwareLines header (before ++ systemInformation :: rest) =
        parseHardwareLines systemInformation rest
  | [], header, rest, _, _ => by
    have h1 : isIndented systemInformation = false := by decide
    have h2 : trimSpace systemInformation = systemInformation := by decide
    simp only [List.nil_append, parseHardwareLines, h1, h2, Bool.false_eq_true, if_false]
  | line :: before, header, rest, hh, hl => by
    rw [List.cons_append, parseHardwareLines]
    cases hi : isIndented line with
    | true =>
      simp only [if_true, if_neg hh]
      exact parseHardwareLines_before before header rest hh
        (fun l hm => hl l (List.mem_cons_of_mem _ hm))
    | false =>
      simp only [Bool.false_eq_true, if_false]
      exact parseHardwareLines_before before _ rest (hl line (List.mem_cons_self _ _) hi)
        (fun l hm => hl l (List.mem_cons_of_mem _ hm))

theorem parseHardwareLines_section :
    ∀ (sec rest : List (List Char)), (∀ l ∈ sec, isIndented l = true) →
      parseHardwareLines systemInformation (sec ++ rest) =
        sec.flatMap lineFields ++ parseHardwareLines systemInformation rest
  | [], rest, _ => by simp
  | line :: sec, rest, hl => by
    rw [List.cons_append, parseHardwareLines, hl line (List.mem_cons_self _ _)]
    simp only [if_true]
    rw [parseHardwareLines_section sec rest (fun l hm => hl l (List.mem_cons_of_mem _ hm))]
    simp

theorem parseHardwareLines_after (after : List (List Char))
    (h1 : ∀ l ∈ after.head?, isIndented l = false)
    (h2 : ∀ l ∈ after, isIndented l = false → trimSpace l ≠ systemInformation) :
    parseHardwareLines systemInformation after = [] := by
  cases after with
  | nil => rfl
  | cons line rest =>
    have hi : isIndented line = false := h1 line (by simp)
    unfold parseHardwareLines
    simp only [hi, Bool.false_eq_true, if_false]
    exact parseHardwareLines_outside rest _ (h2 line (List.mem_cons_self _ _) hi)
      (fun l hm => h2 l (List.mem_cons_of_mem _ hm))

/-- The fields of a dump are those of the lines of its "System Information" section. -/
theorem parseHardware_section (content : List Char) (before sec after : List (List Char))
    (hc : splitLines content = before ++ systemInformation :: (sec ++ after))
    (hb : ∀ l ∈ before, isIndented l = false → trimSpace l ≠ systemInformation)
    (hs : ∀ l ∈ sec, isIndented l = true)
    (ha1 : ∀ l ∈ after.head?, isIndented l = false)
    (ha2 : ∀ l ∈ after, isIndented l = false → trimSpace l ≠ systemInformation) :
    parseHardware content = sec.flatMap lineFields := by
  unfold parseHardware
  rw [hc, parseHardwareLines_before before [] _ (by decide) hb,
    parseHardwareLines_section sec after hs, parseHardwareLines_after after ha1 ha2]
  simp

theorem takeWhile_append_stop {p : Char → Bool} :
    ∀ (a : List Char) (x : Char) (b : List Char), (∀ c ∈ a, p c = true) → p x = false →
      (a ++ x :: b).takeWhile p = a
  | [], x, b, _, hx => by simp [List.takeWhile, hx]
  | c :: a, x, b, ha, hx => by
    have hc : p c = true := ha c (List.mem_cons_self _ _)
    rw [List.cons_append, List.takeWhile_cons_of_pos hc,
      takeWhile_append_stop a x b (fun d hd => ha d (List.mem_cons_of_mem _ hd)) hx]

theorem dropWhile_append_stop {p : Char → Bool} :
    ∀ (a : List Char) (x : Char) (b : List Char), (∀ c ∈ a, p c = true) → p x = false →
      (a ++ x :: b).dropWhile p = x :: b
  | [], x, b, _, hx => by simp [List.dropWhile, hx]
  | c :: a, x, b, ha, hx => by
    have hc : p c = true := ha c (List.mem_cons_self _ _)
    rw [List.cons_append, List.dropWhile_cons_of_pos hc,
      dropWhile_append_stop a x b (fun d hd => ha d (List.mem_cons_of_mem _ hd)) hx]

theorem trimSpace_space_cons (v : List Char) : trimSpace (' ' :: v) = trimSpace v := by
  unfold trimSpace
  rw [List.dropWhile_cons_of_pos (by decide)]

/-- Key and value of a well-formed line. -/
theorem keyValue_line (k v : List Char) (hk : ∀ c ∈ '\t' :: k, c ≠ ':')
    (hkt : trimSpace ('\t' :: k) = k) :
    keyValue ('\t' :: (k ++ ':' :: ' ' :: v)) = some (k, trimSpace v) := by
  have hp : ∀ c ∈ '\t' :: k, (fun c : Char => decide (c ≠ ':')) c = true := by
    intro c hc; simpa using hk c hc
  have hx : (fun c : Char => decide (c ≠ ':')) ':' = false := by simp
  have e : '\t' :: (k ++ ':' :: ' ' :: v) = ('\t' :: k) ++ ':' :: (' ' :: v) := rfl
  unfold keyValue
  rw [if_pos (by simp)]
  rw [e, takeWhile_append_stop _ _ _ hp hx, dropWhile_append_stop _ _ _ hp hx, hkt]
  simp [trimSpace_space_cons]

theorem lineFields_dmiLine (key value : String) (fld : Field)
    (hk : ∀ c ∈ '\t' :: key.toList, c ≠ ':') (hkt : trimSpace ('\t' :: key.toList) = key.toList)
    (hf : hardwareField key.toList = some fld)
    (hv : trimSpace value.toList = value.toList) (hne : value.toList ≠ []) :
    lineFields (dmiLine key value) = [(fld, value)] := by
  unfold lineFields dmiLine
  rw [keyValue_line _ _ hk hkt]
  simp only [hf, hv, if_neg hne]
  rfl

theorem mem_lineFields (line : List Char) (p : Field × String) (hp : p ∈ lineFields line) :
    ∃ k v, keyValue line = some (k, v) ∧ hardwareField k = some p.1 ∧ p.2 = String.mk v := by
  unfold lineFields at hp
  split at hp
  · rename_i k v hkv
    split at hp
    · rename_i fld hfld
      split at hp
      · simp at hp
      · simp at hp
        exact ⟨k, v, hkv, by rw [hp]; exact hfld, by rw [hp]⟩
    · simp at hp
  · simp at hp

theorem hardwareField_vendor (k : List Char) (h : hardwareField k = some .vendor) :
    k = "Manufacturer".toList := by
  unfold hardwareField at h
  split at h
  · assumption
  · split at h
    · cases h
    · split at h <;> cases h

theorem hardwareField_model (k : List Char) (h : hardwareField k = some .model) :
    k = "Product Name".toList := by
  unfold hardwareField at h
  split at h
  · cases h
  · split at h
    · assumption
    · split at h <;> cases h

theorem hardwareField_serialno (k : List Char) (h : hardwareField k = some .serialno) :
    k = "Serial Number".toList := by
  unfold hardwareField at h
  split at h
  · cases h
  · split at h
    · cases h
    · split at h
      · assumption
      · cases h

/-- The value a section gives to a key is the only value parsed for the key's column. -/
theorem flatMap_lineFields_value (sec : List (List Char)) (key value : String) (fld : Field)
    (hk : ∀ c ∈ '\t' :: key.toList, c ≠ ':') (hkt : trimSpace ('\t' :: key.toList) = key.toList)
    (hf : hardwareField key.toList = some fld)
    (hinj : ∀ k, hardwareField k = some fld → k = key.toList)
    (hv : trimSpace value.toList = value.toList) (hne : value.toList ≠ [])
    (hs : sectionValue sec key value) :
    (∀ p ∈ sec.flatMap lineFields, p.1 = fld → p.2 = value) ∧
      ∃ p ∈ sec.flatMap lineFields, p.1 = fld := by
  constructor
  · intro p hp hpf
    obtain ⟨l, hl, hpl⟩ := List.mem_flatMap.mp hp
    obtain ⟨k, v, hkv, hfk, hpv⟩ := mem_lineFields l p hpl
    rw [hpf] at hfk
    have hkk := hinj k hfk
    have := hs.2 l hl (by rw [hkv, hkk]; rfl)
    rw [hkv] at this
    simp only [Option.map_some', Option.some.injEq] at this
    rw [hpv, this]
    rfl
  · refine ⟨(fld, value), List.mem_flatMap.mpr ⟨dmiLine key value, hs.1, ?_⟩, rfl⟩
    rw [lineFields_dmiLine key value fld hk hkt hf hv hne]
    exact List.mem_singleton_self _

theorem dropSig_append (sig rest : List Char) : dropSig sig (sig ++ rest) = some rest := by
  unfold dropSig
  rw [if_pos (by simp)]
  simp

theorem dropSig_some (sig text rest : List Char) (h : dropSig sig text = some rest) :
    text = sig ++ rest := by
  unfold dropSig at h
  split at h
  · rename_i hp
    rw [List.isPrefixOf_iff_prefix] at hp
    obtain ⟨t, ht⟩ := hp
    simp only [Option.some.injEq] at h
    rw [← ht] at h ⊢
    simp at h
    rw [h]
  · cases h

theorem firstMatch_of_some {α : Type} (p : List Char → Option α) (text : List Char) (r : α)
    (h : p text = some r) : firstMatch p text = some r := by
  cases text with
  | nil => simpa [firstMatch] using h
  | cons c cs => simp [firstMatch, h]

theorem firstMatch_none {α : Type} (p : List Char → Option α) :
    ∀ (text : List Char), (∀ s, s <:+ text → p s = none) → firstMatch p text = none
  | [], h => by simpa [firstMatch] using h [] (List.suffix_refl _)
  | c :: cs, h => by
    rw [firstMatch, h (c :: cs) (List.suffix_refl _)]
    exact firstMatch_none p cs (fun s hs => h s (hs.trans (List.suffix_cons c cs)))

theorem rhelAt_some (text : List Char) (r : String × Option String) (h : rhelAt text = some r) :
    rhelSig <+: text := by
  unfold rhelAt at h
  split at h
  · cases h
  · rename_i rest hrest
    rw [dropSig_some _ _ _ hrest]
    exact List.prefix_append _ _

/-- An occurrence of a text whose first character does not occur in `x` lies behind `x`. -/
theorem infix_of_head_not_mem (h : Char) (t x y : List Char) (hx : h ∉ x)
    (hi : (h :: t) <:+: x ++ y) : (h :: t) <:+: y := by
  obtain ⟨s, u, e⟩ := hi
  rw [List.append_assoc] at e
  rcases List.append_eq_append_iff.mp e with ⟨a, ha, hb⟩ | ⟨c, hc, hd⟩
  · cases a with
    | nil =>
      rw [List.nil_append] at hb
      exact ⟨[], u, by simpa using hb⟩
    | cons a0 a' =>
      simp only [List.cons_append, List.cons.injEq] at hb
      exact absurd (by rw [ha, hb.1]; simp) hx
  · exact ⟨c, u, by rw [hd, List.append_assoc]⟩

/-- An occurrence of a text whose last character does not occur in `z` lies before `z`. -/
theorem infix_of_last_not_mem (t : List Char) (l : Char) (y z : List Char) (hz : l ∉ z)
    (hi : (t ++ [l]) <:+: y ++ z) : (t ++ [l]) <:+: y := by
  have h1 : (l :: t.reverse) <:+: z.reverse ++ y.reverse := by
    have := List.reverse_infix.mpr hi
    simpa using this
  have h2 := infix_of_head_not_mem l t.reverse z.reverse y.reverse (by simpa using hz) h1
  have := List.reverse_infix.mpr h2
  simpa using this

theorem detect_fedora (N codename : List Char) (hN : N ≠ [])
    (hd : ∀ c ∈ N, c.isDigit = true) (hcn : ¬ rhelSig <:+: codename) :
    detect (fedoraSig ++ (N ++ (' ' :: '(' :: (codename ++ [')'])))) =
      some ("Fedora " ++ String.mk N, none) := by
  have hrhel : firstMatch rhelAt (fedoraSig ++ (N ++ (' ' :: '(' :: (codename ++ [')'])))) =
      none := by
    apply firstMatch_none
    intro s hs
    cases hr : rhelAt s with
    | none => rfl
    | some r =>
      exfalso
      apply hcn
      have hpre := rhelAt_some s r hr
      have hinf : rhelSig <:+: fedoraSig ++ (N ++ (' ' :: '(' :: (codename ++ [')']))) :=
        hpre.isInfix.trans hs.isInfix
      have e1 : fedoraSig ++ (N ++ (' ' :: '(' :: (codename ++ [')']))) =
          (fedoraSig ++ N ++ [' ', '(']) ++ (codename ++ [')']) := by simp
      have hR : 'R' ∉ fedoraSig ++ N ++ [' ', '('] := by
        intro hm
        simp only [List.mem_append] at hm
        rcases hm with (hm | hm) | hm
        · revert hm; decide
        · have := hd _ hm; revert this; decide
        · revert hm; decide
      have e2 : rhelSig = 'R' :: "ed Hat Enterprise Linux ".toList := by decide
      have e3 : rhelSig = "Red Hat Enterprise Linux".toList ++ [' '] := by decide
      rw [e1, e2] at hinf
      have h2 := infix_of_head_not_mem _ _ _ _ hR hinf
      rw [← e2, e3] at h2
      have h3 := infix_of_last_not_mem _ _ _ _ (by decide) h2
      rw [← e3] at h3
      exact h3
  have hfed : fedoraAt (fedoraSig ++ (N ++ (' ' :: '(' :: (codename ++ [')'])))) =
      some ("Fedora " ++ String.mk N, none) := by
    unfold fedoraAt
    rw [dropSig_append]
    simp only []
    rw [takeWhile_append_stop N ' ' _ hd (by decide), if_neg hN]
  unfold detect osRules
  simp only [List.findSome?, hrhel, firstMatch_of_some _ _ _ hfed]

theorem detect_rhel (edition M rest : List Char) (he : edition ≠ [])
    (hes : ∀ c ∈ edition, isSpace c = false) (hM : M ≠ []) (hd : ∀ c ∈ M, c.isDigit = true) :
    detect (rhelSig ++ (edition ++ (releaseSig ++ (M ++ '.' :: rest)))) =
      some ("RHEL " ++ String.mk M, some (String.mk edition)) := by
  have hp : ∀ c ∈ edition, (fun c : Char => !isSpace c) c = true := by
    intro c hc; simp [hes c hc]
  have e : releaseSig = ' ' :: "release ".toList := by decide
  have hx : (fun c : Char => !isSpace c) ' ' = false := by decide
  have hrhel : rhelAt (rhelSig ++ (edition ++ (releaseSig ++ (M ++ '.' :: rest)))) =
      some ("RHEL " ++ String.mk M, some (String.mk edition)) := by
    unfold rhelAt
    rw [dropSig_append]
    simp only []
    have e1 : edition ++ (releaseSig ++ (M ++ '.' :: rest)) =
        edition ++ ' ' :: ("release ".toList ++ (M ++ '.' :: rest)) := by rw [e]; rfl
    rw [e1, dropWhile_append_stop edition ' ' _ hp hx, takeWhile_append_stop edition ' ' _ hp hx]
    have e2 : ' ' :: ("release ".toList ++ (M ++ '.' :: rest)) =
        releaseSig ++ (M ++ '.' :: rest) := by rw [e]; rfl
    rw [e2, dropSig_append]
    simp only []
    rw [takeWhile_append_stop M '.' _ hd (by decide)]
    rw [if_neg (by simp [he, hM])]
  unfold detect osRules
  simp only [List.findSome?, firstMatch_of_some _ _ _ hrhel]

theorem fieldIs_os_of_detect (db : DB) (fileID : Int) (f : UploadedFile)
    (family : String) (edition : Option String)
    (hfind : db.files.find? (fun g => decide (g.fileid = fileID)) = some f)
    (hlabel : f.filename = "/etc/redhat-release")
    (hdet : detect f.content.toList = some (family, edition)) :
    fieldIs (parseFile db fileID) f.certfp .os family := by
  have hd : dispatch "/etc/redhat-release" = some .osRelease := by decide
  have hparse : parse f.filename f.content =
      (Field.os, family) ::
        (match edition with
         | some e => [(Field.os_edition, e)]
         | none => []) := by
    unfold parse
    rw [hlabel, hd]
    simp only [parseOSRelease, hdet]
    cases edition <;> rfl
  apply fieldIs_parseFile_same db fileID f .os family hfind
  · intro p hp hp1
    rw [hparse] at hp
    rcases List.mem_cons.mp hp with e | hm
    · rw [e]
    · cases edition with
      | none => simp at hm
      | some e =>
        simp at hm
        rw [hm] at hp1
        cases hp1
  · exact ⟨(Field.os, family), by rw [hparse]; exact List.mem_cons_self _ _, rfl⟩

/-- C4, amended.  OS detection through `parseFile` on the file with the given id, labelled
`/etc/redhat-release`.  For a content "Fedora release N (codename)", `N` a non-empty string
of digits and the codename without the text "Red Hat Enterprise Linux ", the host's `os`
becomes "Fedora N"; for a content "Red Hat Enterprise Linux <edition> release M.m (codename)",
the edition a non-empty word without white space and `M` a non-empty string of digits, the
host's `os` becomes "RHEL M". -/
theorem os_label_from_release_file (db : DB) (fileID : Int) (f : UploadedFile)
    (hfind : db.files.find? (fun g => decide (g.fileid = fileID)) = some f)
    (hlabel : f.filename = "/etc/redhat-release") :
    (∀ N codename : String,
      f.content = "Fedora release " ++ N ++ " (" ++ codename ++ ")" →
      N.toList ≠ [] → (∀ c ∈ N.toList, c.isDigit = true) →
      ¬ rhelSig <:+: codename.toList →
      fieldIs (parseFile db fileID) f.certfp .os ("Fedora " ++ N)) ∧
    (∀ edition M m codename : String,
      f.content = "Red Hat Enterprise Linux " ++ edition ++ " release " ++ M ++ "." ++ m ++
        " (" ++ codename ++ ")" →
      edition.toList ≠ [] → (∀ c ∈ edition.toList, isSpace c = false) →
      M.toList ≠ [] → (∀ c ∈ M.toList, c.isDigit = true) →
      fieldIs (parseFile db fileID) f.certfp .os ("RHEL " ++ M)) := by
  constructor
  · intro N codename hc hN hd hcn
    apply fieldIs_os_of_detect db fileID f _ none hfind hlabel
    have e : f.content.toList =
        fedoraSig ++ (N.toList ++ (' ' :: '(' :: (codename.toList ++ [')']))) := by
      rw [hc]
      simp only [String.toList, String.data_append, fedoraSig, List.append_assoc]
      rfl
    rw [e]
    exact detect_fedora N.toList codename.toList hN hd hcn
  · intro edition M m codename hc he hes hM hd
    apply fieldIs_os_of_detect db fileID f _ (some edition) hfind hlabel
    have e : f.content.toList =
        rhelSig ++ (edition.toList ++ (releaseSig ++ (M.toList ++
          '.' :: (m.toList ++ (' ' :: '(' :: (codename.toList ++ [')'])))))) := by
      rw [hc]
      simp only [String.toList, String.data_append, rhelSig, releaseSig, List.append_assoc]
      rfl
    rw [e]
    exact detect_rhel edition.toList M.toList _ he hes hM hd

/-- C4, amended, at the two contents of `testOSdetection`. -/
theorem os_label_from_release_file_witness :
    fieldIs (parseFile { hostinfo := [], files := [fedoraFile] } 10000) "AA11" .os "Fedora 27" ∧
    fieldIs (parseFile { hostinfo := [], files := [rhelFile] } 10000) "AA11" .os "RHEL 7" :=
  ⟨(os_label_from_release_file { hostinfo := [], files := [fedoraFile] } 10000 fedoraFile
      rfl rfl).1 "27" "Twenty Seven" rfl (by decide) (by decide) (by decide),
   (os_label_from_release_file { hostinfo := [], files := [rhelFile] } 10000 rhelFile
      rfl rfl).2 "Workstation" "7" "4" "Maipo" rfl (by decide) (by decide) (by decide)
      (by decide)⟩

/-- C4, as stated, fails for a content of the form "Fedora release N (...)" whose parenthesis
holds the text of the broader rule: the Red Hat Enterprise Linux rule is evaluated first and
matches inside the parenthesis, so the host's `os` becomes "RHEL 7" and not "Fedora 27". -/
theorem fedora_with_rhel_text_is_rhel :
    nestedFedoraFile.content =
      "Fedora release " ++ "27" ++ " (" ++ "Red Hat Enterprise Linux Server release 7.4" ++ ")" ∧
    fieldIs (parseFile { hostinfo := [], files := [nestedFedoraFile] } 10000) "AA11" .os
      "RHEL 7" ∧
    ¬ fieldIs (parseFile { hostinfo := [], files := [nestedFedoraFile] } 10000) "AA11" .os
      "Fedora 27" := by
  decide

/-- With ids as key, `parseFile` loads the row itself. -/
theorem find?_of_fileidUnique (db : DB) (hu : db.fileidUnique) (f : UploadedFile)
    (hf : f ∈ db.files) :
    db.files.find? (fun g => decide (g.fileid = f.fileid)) = some f := by
  cases hfind : db.files.find? (fun g => decide (g.fileid = f.fileid)) with
  | none =>
    have := List.find?_eq_none.mp hfind f hf
    simp at this
  | some g =>
    have hg : g ∈ db.files := List.mem_of_find?_eq_some hfind
    have hid : g.fileid = f.fileid := by simpa using List.find?_some hfind
    rw [List.inj_on_of_nodup_map hu hg hf hid]

theorem fieldIs_foldl_ids (db : DB) (f : UploadedFile) (pre post : List Int) (fld : Field)
    (v : String)
    (hfind : db.files.find? (fun g => decide (g.fileid = f.fileid)) = some f)
    (hv : ∀ p ∈ parse f.filename f.content, p.1 = fld → p.2 = v)
    (hex : ∃ p ∈ parse f.filename f.content, p.1 = fld)
    (hlast : ∀ i ∈ post, ∀ g, db.files.find? (fun f => decide (f.fileid = i)) = some g →
      g.certfp ≠ f.certfp ∨ dispatch g.filename ≠ some (fieldKind fld)) :
    fieldIs ((pre ++ f.fileid :: post).foldl parseFile db) f.certfp fld v := by
  rw [List.foldl_append, List.foldl_cons]
  apply fieldIs_foldl_parseFile f.certfp fld v db.files post
  · rw [parseFile_files, foldl_parseFile_files]
  · exact hlast
  · apply fieldIs_parseFile_same _ _ _ _ _ _ hv hex
    rw [foldl_parseFile_files]; exact hfind

theorem mem_pendingFiles (db : DB) (g : UploadedFile) :
    g ∈ pendingFiles db ↔ g ∈ db.files ∧ isPending db g = true := by
  unfold pendingFiles
  rw [List.mem_insertionSort, List.mem_filter]

/-- The column written by the newest pending upload of a host for a parser. -/
theorem fieldIs_Run (db : DB) (f : UploadedFile) (fld : Field) (v : String)
    (hu : db.fileidUnique) (hf : f ∈ db.files) (hpend : isPending db f = true)
    (hnewest : ∀ g ∈ db.files, isPending db g = true → g.certfp = f.certfp →
      dispatch g.filename = some (fieldKind fld) →
      g.fileid = f.fileid ∨ g.received < f.received)
    (hv : ∀ p ∈ parse f.filename f.content, p.1 = fld → p.2 = v)
    (hex : ∃ p ∈ parse f.filename f.content, p.1 = fld) :
    fieldIs (parseFilesJob.Run db) f.certfp fld v := by
  have hmem : f ∈ pendingFiles db := (mem_pendingFiles db f).mpr ⟨hf, hpend⟩
  obtain ⟨pre, post, hL⟩ := List.append_of_mem hmem
  have hsorted : (pendingFiles db).Sorted arrivedNoLater :=
    List.sorted_insertionSort arrivedNoLater _
  have hnodup : (pendingFiles db).Nodup := by
    unfold pendingFiles
    exact (List.perm_insertionSort arrivedNoLater _).nodup_iff.mpr
      ((List.Nodup.of_map _ hu).filter _)
  rw [hL] at hsorted hnodup
  have hfpost : f ∉ post := by
    intro hx
    have := (List.nodup_append.mp hnodup).2.1
    exact (List.nodup_cons.mp this).1 hx
  have hle : ∀ g ∈ post, f.received ≤ g.received := by
    intro g hg
    have h2 := (List.pairwise_append.mp hsorted).2.1
    exact List.rel_of_pairwise_cons h2 hg
  unfold parseFilesJob.Run
  rw [hL, List.map_append, List.map_cons]
  apply fieldIs_foldl_ids db f _ _ fld v (find?_of_fileidUnique db hu f hf) hv hex
  intro i hi g' hfind'
  obtain ⟨g, hg, hgi⟩ := List.mem_map.mp hi
  have hgL : g ∈ pendingFiles db := by rw [hL]; simp [hg]
  have hgp := (mem_pendingFiles db g).mp hgL
  have hfind := find?_of_fileidUnique db hu g hgp.1
  rw [hgi] at hfind
  rw [hfind] at hfind'
  have hgg : g = g' := Option.some.inj hfind'
  subst hgg
  by_cases hc : g.certfp = f.certfp
  · right
    intro hd
    rcases hnewest g hgp.1 hgp.2 hc hd with hid | hlt
    · have : g = f := List.inj_on_of_nodup_map hu hgp.1 hf hid
      exact hfpost (this ▸ hg)
    · exact absurd (hle g hg) (not_le.mpr hlt)
  · exact Or.inl hc

/-- Trimming removes white space at both ends, and nothing else. -/
theorem trimSpace_spec (s : List Char) :
    (∃ pre post, s = pre ++ trimSpace s ++ post ∧
      (∀ c ∈ pre, isSpace c = true) ∧ (∀ c ∈ post, isSpace c = true)) ∧
    (∀ c, (trimSpace s).head? = some c → isSpace c = false) ∧
    (∀ c, (trimSpace s).getLast? = some c → isSpace c = false) := by
  have hsplit : (s.dropWhile isSpace).rdropWhile isSpace ++
      (s.dropWhile isSpace).rtakeWhile isSpace = s.dropWhile isSpace := by
    simp [List.rdropWhile, List.rtakeWhile, ← List.reverse_append]
  refine ⟨⟨s.takeWhile isSpace, (s.dropWhile isSpace).rtakeWhile isSpace, ?_, ?_, ?_⟩, ?_, ?_⟩
  · unfold trimSpace
    rw [List.append_assoc, hsplit, List.takeWhile_append_dropWhile]
  · intro c hc; exact List.mem_takeWhile_imp hc
  · intro c hc; exact List.mem_rtakeWhile_imp hc
  · intro c hc
    have hne : trimSpace s ≠ [] := by
      intro e; rw [e] at hc; simp at hc
    have hpre : trimSpace s <+: s.dropWhile isSpace := List.rdropWhile_prefix _ _
    obtain ⟨t, ht⟩ := hpre
    have hh : (s.dropWhile isSpace).head? = some c := by
      rw [← ht, List.head?_append_of_ne_nil _ hne, hc]
    have := List.head?_dropWhile_not isSpace s
    rw [hh] at this
    simpa using this
  · intro c hc
    have hne : trimSpace s ≠ [] := by
      intro e; rw [e] at hc; simp at hc
    have h1 := List.rdropWhile_last_not isSpace (s.dropWhile isSpace) hne
    have h2 : (trimSpace s).getLast? = some ((trimSpace s).getLast hne) :=
      List.getLast?_eq_getLast _ hne
    rw [h2] at hc
    have h3 : (trimSpace s).getLast hne = c := Option.some.inj hc
    rw [← h3]
    simpa [trimSpace] using h1

/-- C5. Hardware parsing of a file labelled `/usr/sbin/dmidecode -t system`.  Let the upload
be pending (a current row, not yet reflected in `hostinfo`) and the newest pending hardware
dump of its host, ids being the key of `files`.  Let the lines of the dump be `before`, the
header "System Information", the indented lines `sec` of that section, and `after`, with no
other "System Information" header, and let `sec` give the keys "Manufacturer",
"Product Name" and "Serial Number" the values `V`, `P` and `S`.  Then after
`parseFilesJob.Run`, which selects the rows itself, the host has a `hostinfo` row, and vendor,
model and serial number are `V`, `P` and `S`, whatever the keys of the other sections are. -/
theorem hardware_from_system_information (db : DB) (f : UploadedFile)
    (before sec after : List (List Char)) (V P S : String)
    (hu : db.fileidUnique) (hf : f ∈ db.files) (hpend : isPending db f = true)
    (hnewest : ∀ g ∈ db.files, isPending db g = true → g.certfp = f.certfp →
      dispatch g.filename = some .hardware →
      g.fileid = f.fileid ∨ g.received < f.received)
    (hlabel : f.filename = "/usr/sbin/dmidecode -t system")
    (hcontent : splitLines f.content.toList = before ++ systemInformation :: (sec ++ after))
    (hb : ∀ l ∈ before, isIndented l = false → trimSpace l ≠ systemInformation)
    (hs : ∀ l ∈ sec, isIndented l = true)
    (ha1 : ∀ l ∈ after.head?, isIndented l = false)
    (ha2 : ∀ l ∈ after, isIndented l = false → trimSpace l ≠ systemInformation)
    (hV : sectionValue sec "Manufacturer" V)
    (hP : sectionValue sec "Product Name" P)
    (hS : sectionValue sec "Serial Number" S)
    (hVt : trimSpace V.toList = V.toList ∧ V.toList ≠ [])
    (hPt : trimSpace P.toList = P.toList ∧ P.toList ≠ [])
    (hSt : trimSpace S.toList = S.toList ∧ S.toList ≠ []) :
    fieldIs (parseFilesJob.Run db) f.certfp .vendor V ∧
    fieldIs (parseFilesJob.Run db) f.certfp .model P ∧
    fieldIs (parseFilesJob.Run db) f.certfp .serialno S := by
  have hparse : parse f.filename f.content = sec.flatMap lineFields := by
    have hd : dispatch "/usr/sbin/dmidecode -t system" = some .hardware := by decide
    unfold parse
    rw [hlabel, hd]
    simp only []
    exact parseHardware_section _ before sec after hcontent hb hs ha1 ha2
  have hv := flatMap_lineFields_value sec "Manufacturer" V .vendor (by decide) (by decide)
    (by decide) hardwareField_vendor hVt.1 hVt.2 hV
  have hm := flatMap_lineFields_value sec "Product Name" P .model (by decide) (by decide)
    (by decide) hardwareField_model hPt.1 hPt.2 hP
  have hsn := flatMap_lineFields_value sec "Serial Number" S .serialno (by decide) (by decide)
    (by decide) hardwareField_serialno hSt.1 hSt.2 hS
  rw [← hparse] at hv hm hsn
  exact ⟨fieldIs_Run db f .vendor V hu hf hpend hnewest hv.1 hv.2,
    fieldIs_Run db f .model P hu hf hpend hnewest hm.1 hm.2,
    fieldIs_Run db f .serialno S hu hf hpend hnewest hsn.1 hsn.2⟩

set_option maxRecDepth 1000000 in
/-- C5 at the uploads of `TestParseFile`: the job selects both uploads itself, and the dump
`dmiDecodeOutput` gives vendor "Dell Inc.", model "Latitude E7240" and serial number
"AFK5678".  And at a host that processed its uploads up to time 5: the job selects the
current dump received at time 7 only, and the vendor "Other Corp." becomes "Dell Inc.". -/
theorem hardware_from_system_information_witness :
    pendingFiles testDB = [unameFile, dmiFile] ∧
    fieldIs (parseFilesJob.Run testDB) "1234" .vendor "Dell Inc." ∧
    fieldIs (parseFilesJob.Run testDB) "1234" .model "Latitude E7240" ∧
    fieldIs (parseFilesJob.Run testDB) "1234" .serialno "AFK5678" ∧
    pendingFiles laterDmiDB = [laterDmiFile] ∧
    fieldIs (parseFilesJob.Run laterDmiDB) "1234" .vendor "Dell Inc." ∧
    fieldIs (parseFilesJob.Run laterDmiDB) "1234" .model "Latitude E7240" ∧
    fieldIs (parseFilesJob.Run laterDmiDB) "1234" .serialno "AFK5678" :=
  have t1 := hardware_from_system_information testDB dmiFile
    dmiBefore dmiSection dmiAfter "Dell Inc." "Latitude E7240" "AFK5678"
    (by decide) (by simp [testDB]) rfl (by decide)
    rfl rfl (by decide) (by decide) (by decide) (by decide)
    (by decide) (by decide) (by decide) (by decide) (by decide) (by decide)
  have t2 := hardware_from_system_information laterDmiDB laterDmiFile
    dmiBefore dmiSection dmiAfter "Dell Inc." "Latitude E7240" "AFK5678"
    (by decide) (by simp [laterDmiDB]) rfl (by decide)
    rfl rfl (by decide) (by decide) (by decide) (by decide)
    (by decide) (by decide) (by decide) (by decide) (by decide) (by decide)
  ⟨rfl, t1.1, t1.2.1, t1.2.2, rfl, t2.1, t2.2.1, t2.2.2⟩

theorem parse_uname (content : String) (hne : trimSpace content.toList ≠ []) :
    parse "/bin/uname -r" content = [(.kernel, String.mk (trimSpace content.toList))] := by
  have hd : dispatch "/bin/uname -r" = some .kernel := by decide
  unfold parse
  rw [hd]
  simp only [parseKernel, if_neg hne]

/-- C6, amended.  Kernel parsing of a file labelled `/bin/uname -r` whose trimmed content is
not empty.  Let the upload be pending (a current row, not yet reflected in `hostinfo`) and
the newest pending upload of its host that goes to the kernel parser, ids being the key of
`files`.  Then after `parseFilesJob.Run`, which selects the rows itself, the host has a
`hostinfo` row, also when it had none before, and its kernel is the whole content, trimmed:
the content is the kernel value with white space before and behind it, and the kernel value
neither starts nor ends with white space. -/
theorem kernel_is_trimmed_content (db : DB) (f : UploadedFile)
    (hu : db.fileidUnique) (hf : f ∈ db.files) (hpend : isPending db f = true)
    (hnewest : ∀ g ∈ db.files, isPending db g = true → g.certfp = f.certfp →
      dispatch g.filename = some .kernel →
      g.fileid = f.fileid ∨ g.received < f.received)
    (hlabel : f.filename = "/bin/uname -r")
    (hne : trimSpace f.content.toList ≠ []) :
    fieldIs (parseFilesJob.Run db) f.certfp .kernel (String.mk (trimSpace f.content.toList)) ∧
    (∃ pre post, f.content.toList = pre ++ trimSpace f.content.toList ++ post ∧
      (∀ c ∈ pre, isSpace c = true) ∧ (∀ c ∈ post, isSpace c = true)) ∧
    (∀ c, (trimSpace f.content.toList).head? = some c → isSpace c = false) ∧
    (∀ c, (trimSpace f.content.toList).getLast? = some c → isSpace c = false) := by
  have hparse := parse_uname f.content hne
  rw [← hlabel] at hparse
  refine ⟨?_, trimSpace_spec f.content.toList⟩
  apply fieldIs_Run db f .kernel _ hu hf hpend hnewest
  · intro p hp' _
    rw [hparse] at hp'
    rw [List.mem_singleton.mp hp']
  · exact ⟨_, by rw [hparse]; exact List.mem_singleton_self _, rfl⟩

set_option maxRecDepth 100000 in
/-- C6, amended, at the uploads of `TestParseFile`, and at an upload with white space around
the version for a host whose kernel was known: of the three uploads of that host the job
selects the one that is current and newer than what the host has processed, and the kernel
becomes the version without the white space. -/
theorem kernel_is_trimmed_content_witness :
    fieldIs (parseFilesJob.Run testDB) "1234" .kernel "4.15.13-300.fc27.x86_64" ∧
    pendingFiles paddedUnameDB = [paddedUnameFile] ∧
    fieldIs (parseFilesJob.Run paddedUnameDB) "5678" .kernel "4.15.13-300.fc27.x86_64" :=
  ⟨(kernel_is_trimmed_content testDB unameFile (by decide) (by simp [testDB]) rfl (by decide)
      rfl (by decide)).1,
   rfl,
   (kernel_is_trimmed_content paddedUnameDB paddedUnameFile (by decide) (by simp [paddedUnameDB])
      rfl (by decide) rfl (by decide)).1⟩

/-- C6, as stated, fails for a content without text: host "1234" has kernel "4.14.0" and a
pending upload of `/bin/uname -r` that is blank; the job selects it, the trimmed content is
empty, the parser yields no field, and after `parseFilesJob.Run` the kernel is still
"4.14.0", not the trimmed content. -/
theorem blank_uname_keeps_kernel :
    blankUnameDB.fileidUnique ∧
    pendingFiles blankUnameDB = blankUnameDB.files ∧
    trimSpace " \n".toList = [] ∧
    (parseFilesJob.Run blankUnameDB).hostinfo = blankUnameDB.hostinfo ∧
    fieldIs (parseFilesJob.Run blankUnameDB) "1234" .kernel "4.14.0" ∧
    ¬ fieldIs (parseFilesJob.Run blankUnameDB) "1234" .kernel
        (String.mk (trimSpace " \n".toList)) := by
  decide

end Nivlheim
